import Mathlib

/-!
Verification of the sokoban-fuzz core against its specification.

The Rust sources embedded here are `src/util.rs` (pathfinding: `go_to`,
`can_go_to`, `push_to`, `find_crates`), `src/mutators.rs` (the MoveCrate,
MoveCrateToTarget and OneShot mutators together with the per-testcase
mutation-budget metadata) and `src/scheduler.rs` (the weighted corpus
scheduler).  The external `sokoban` rules engine (tiles, `move_player`,
`in_solution_state`) is out of scope for the repository and is modelled
from the specification's description of its interface.

Machine integers (`usize`) are modelled as `Nat`; the `checked_sub`
behaviour of `Direction::go` at the grid border is explicit.  Fallible
Rust code (panics, `unwrap`) is modelled with `Option`/`Except`:
a `none` result of a model function stands for a panic or, for the
fuel-indexed search loops, for exhaustion of the (provably sufficient)
fuel.  BFS visited sets (`HashMap` in Rust) are modelled as association
lists that are only ever extended with fresh keys, which preserves the
map semantics exactly.
-/

namespace SokobanFuzz

/-- Grid positions are `(row, col)` pairs of natural numbers. -/
abbrev Pos := Nat × Nat

/-- Modelled from the spec: the four unit player moves of the external
rules engine. -/
inductive Direction where
  | up | down | left | right
deriving DecidableEq, Repr

/-- Modelled from the spec: `Direction::go` on `(usize, usize)` positions;
moving up from row 0 or left from column 0 is a checked-subtraction
failure and yields `none`. -/
def Direction.go : Direction → Pos → Option Pos
  | .up, p => if p.1 = 0 then none else some (p.1 - 1, p.2)
  | .down, p => some (p.1 + 1, p.2)
  | .left, p => if p.2 = 0 then none else some (p.1, p.2 - 1)
  | .right, p => some (p.1, p.2 + 1)

/-- `opposite` from `src/util.rs`. -/
def opposite : Direction → Direction
  | .up => .down
  | .down => .up
  | .left => .right
  | .right => .left

/-- `POSSIBLE_MOVES` from `src/util.rs`: the fixed exploration order
Up, Down, Left, Right. -/
def POSSIBLE_MOVES : List Direction := [.up, .down, .left, .right]

/-- Modelled from the spec: the three tile kinds of the rules engine. -/
inductive Tile where
  | wall | floor | crate
deriving DecidableEq, Repr

/-- The part of a puzzle state that the pathfinding reads: dimensions and
the row-major tile container. -/
structure Board where
  rows : Nat
  cols : Nat
  cells : List Tile
deriving DecidableEq, Repr

/-- Modelled from the spec: the rules-engine puzzle state — a rectangular
grid of tiles, the player position and the ordered target list. -/
structure SokobanState where
  rows : Nat
  cols : Nat
  container : List Tile
  player : Pos
  targets : List Pos
deriving DecidableEq, Repr

def SokobanState.board (s : SokobanState) : Board :=
  ⟨s.rows, s.cols, s.container⟩

/-- Row-major index of a position, as used by the rules engine's `Index`
implementation. -/
def rmIdx (cols : Nat) (p : Pos) : Nat := p.1 * cols + p.2

/-- Total tile read; out-of-container reads (which would panic in Rust and
are always guarded in `src/util.rs`) default to `wall`. -/
def Board.tileAt (b : Board) (p : Pos) : Tile :=
  b.cells.getD (rmIdx b.cols p) .wall

/-- Tile read that makes the Rust slice-index panic observable as `none`;
used where the source indexes without a preceding bounds check. -/
def Board.tileAtChecked (b : Board) (p : Pos) : Option Tile :=
  b.cells.get? (rmIdx b.cols p)

def Board.inBounds (b : Board) (p : Pos) : Prop :=
  p.1 < b.rows ∧ p.2 < b.cols

instance (b : Board) (p : Pos) : Decidable (b.inBounds p) := by
  unfold Board.inBounds; infer_instance

def Board.setTile (b : Board) (p : Pos) (t : Tile) : Board :=
  { b with cells := b.cells.set (rmIdx b.cols p) t }

def SokobanState.tileAt (s : SokobanState) (p : Pos) : Tile :=
  s.board.tileAt p

def SokobanState.setTile (s : SokobanState) (p : Pos) (t : Tile) : SokobanState :=
  { s with container := s.container.set (rmIdx s.cols p) t }

/-- Well-formedness of a state: the container has exactly `rows * cols`
tiles (guaranteed by the rules engine's constructor). -/
def WF (s : SokobanState) : Prop := s.container.length = s.rows * s.cols

instance (s : SokobanState) : Decidable (WF s) := by
  unfold WF; infer_instance

/-- Modelled from the spec: `move_player` of the rules engine.  Moving
into a Floor tile moves the player; moving into a Crate pushes it when
the square beyond is a Floor tile; every other case is an error carrying
the unchanged state. -/
def SokobanState.move_player (s : SokobanState) (d : Direction) :
    Except SokobanState SokobanState :=
  match d.go s.player with
  | none => .error s
  | some next =>
    if s.board.inBounds next then
      match s.tileAt next with
      | .floor => .ok { s with player := next }
      | .wall => .error s
      | .crate =>
        match d.go next with
        | none => .error s
        | some beyond =>
          if s.board.inBounds beyond ∧ s.tileAt beyond = .floor then
            .ok { (s.setTile next .floor).setTile beyond .crate with player := next }
          else .error s
    else .error s

/-- Replay a move list with `move_player`, propagating the first error
(the `try_fold` idiom of the source). -/
def replayE (s : SokobanState) : List Direction → Except SokobanState SokobanState
  | [] => .ok s
  | d :: ds =>
    match s.move_player d with
    | .ok s2 => replayE s2 ds
    | .error e => .error e

/-- Modelled from the spec: `in_solution_state` — every target square
holds a crate. -/
def SokobanState.in_solution_state (s : SokobanState) : Bool :=
  s.targets.all fun t => decide (s.tileAt t = .crate)

/-- `find_crates` from `src/util.rs`: all crate positions in row-major
order. -/
def find_crates (s : SokobanState) : List Pos :=
  (List.range (s.rows * s.cols)).filterMap fun i =>
    if s.container.getD i .wall = .crate then some ((i / s.cols, i % s.cols) : Pos)
    else none

/-! ### The flood-fill maps

`prev_moves : HashMap<(usize,usize), Option<Direction>>` is modelled as an
association list extended only at fresh keys. -/

abbrev PrevMap := List (Pos × Option Direction)

def lookupPos : PrevMap → Pos → Option (Option Direction)
  | [], _ => none
  | (q, v) :: rest, p => if p = q then some v else lookupPos rest p

/-- Membership in the flood-fill map. -/
def memMap (m : PrevMap) (p : Pos) : Prop := (lookupPos m p).isSome

instance (m : PrevMap) (p : Pos) : Decidable (memMap m p) := by
  unfold memMap; infer_instance

/-! ### `go_to` / `can_go_to` (src/util.rs lines 26–126) -/

/-- The direction scan of `explore_local`: try each direction in order,
inserting fresh in-bounds Floor neighbours; returns early with `true`
as soon as the destination is inserted. -/
def explore_local_dirs (b : Board) (dest start : Pos) :
    List Direction → PrevMap → List Pos → Bool × PrevMap × List Pos
  | [], m, acc => (false, m, acc)
  | d :: ds, m, acc =>
    match d.go start with
    | none => explore_local_dirs b dest start ds m acc
    | some next =>
      if b.inBounds next ∧ b.tileAt next = .floor then
        match lookupPos m next with
        | some _ => explore_local_dirs b dest start ds m acc
        | none =>
          if next = dest then (true, (next, some d) :: m, acc)
          else explore_local_dirs b dest start ds ((next, some d) :: m) (acc ++ [next])
      else explore_local_dirs b dest start ds m acc

/-- `explore_local` from `src/util.rs`. -/
def explore_local (b : Board) (dest start : Pos) (m : PrevMap) (acc : List Pos) :
    Bool × PrevMap × List Pos :=
  explore_local_dirs b dest start POSSIBLE_MOVES m acc

/-- One BFS level of `go_to`: process the taken frontier in order,
returning early (`Sum.inl`) when the destination is found. -/
def goLevel (b : Board) (dest : Pos) :
    List Pos → PrevMap → List Pos → PrevMap ⊕ (PrevMap × List Pos)
  | [], m, acc => .inr (m, acc)
  | p :: rest, m, acc =>
    match explore_local b dest p m acc with
    | (true, m2, _) => .inl m2
    | (false, m2, acc2) => goLevel b dest rest m2 acc2

/-- The `while !new_moves.is_empty()` loop of `go_to`, fuel-indexed.
`none` is fuel exhaustion (proved unreachable for the fuel used),
`some none` is termination without finding the destination, and
`some (some m)` is the found case with the final flood-fill map. -/
def goLoop (b : Board) (dest : Pos) : Nat → PrevMap → List Pos → Option (Option PrevMap)
  | 0, _, _ => none
  | _ + 1, _, [] => some none
  | fuel + 1, m, p :: rest =>
    match goLevel b dest (p :: rest) m [] with
    | .inl mf => some (some mf)
    | .inr (m2, acc2) => goLoop b dest fuel m2 acc2

/-- Walking backwards through the flood-fill map, prepending each stored
direction (the `while let` loop of `go_to`).  The fuel bounds the chain
length; `none` models the panic of `opposite(d).go(next).unwrap()`
failing or a cyclic chain, both proved unreachable. -/
def reconstructF (m : PrevMap) : Nat → Pos → List Direction → Option (List Direction)
  | 0, _, _ => none
  | fuel + 1, cur, acc =>
    match lookupPos m cur with
    | some (some d) =>
      match (opposite d).go cur with
      | some parent => reconstructF m fuel parent (d :: acc)
      | none => none
    | _ => some acc

/-- Fuel sufficient for the BFS loops: one level per possible insertion
plus slack. -/
def searchFuel (b : Board) : Nat := b.rows * b.cols + 2

/-- The entry guard shared by `go_to` and `can_go_to`. -/
def goGuard (b : Board) (start dest : Pos) : Prop :=
  b.inBounds start ∧ b.tileAt start = .floor ∧
    b.inBounds dest ∧ b.tileAt dest = .floor

instance (b : Board) (s t : Pos) : Decidable (goGuard b s t) := by
  unfold goGuard; infer_instance

def goToB (start dest : Pos) (b : Board) : Option (List Direction) :=
  if goGuard b start dest then
    if start = dest then some []
    else
      match goLoop b dest (searchFuel b) [(start, none)] [start] with
      | some (some mf) => reconstructF mf mf.length dest []
      | _ => none
  else none

def canGoToB (start dest : Pos) (b : Board) : Bool :=
  if goGuard b start dest then
    if start = dest then true
    else
      match goLoop b dest (searchFuel b) [(start, none)] [start] with
      | some (some _) => true
      | _ => false
  else false

/-- `go_to` from `src/util.rs`. -/
def go_to (start dest : Pos) (s : SokobanState) : Option (List Direction) :=
  goToB start dest s.board

/-- `can_go_to` from `src/util.rs`. -/
def can_go_to (start dest : Pos) (s : SokobanState) : Bool :=
  canGoToB start dest s.board

/-! ### `push_to` (src/util.rs lines 129–259)

The crate-position BFS runs over `b0`, the board with the pushed crate's
own square hallucinated to Floor.  `push_local` temporarily writes the
crate at the node being expanded before each `can_go_to` check and
restores it afterwards; since the node's square is Floor in `b0`, that
mutate-check-restore pair is modelled by running `can_go_to` on
`b0.setTile start .crate` while threading `b0` itself. -/

/-- The direction scan of `push_local`. -/
def push_local_dirs (b0 : Board) (playerPos dest start : Pos) :
    List Direction → PrevMap → List Pos → Bool × PrevMap × List Pos
  | [], m, acc => (false, m, acc)
  | d :: ds, m, acc =>
    match d.go start, (opposite d).go start with
    | some next, some push_point =>
      if b0.inBounds next ∧ b0.tileAt next = .floor ∧
          b0.inBounds push_point ∧ b0.tileAt push_point = .floor then
        match lookupPos m next with
        | some _ => push_local_dirs b0 playerPos dest start ds m acc
        | none =>
          if canGoToB playerPos push_point (b0.setTile start .crate) then
            if next = dest then (true, (next, some d) :: m, acc)
            else push_local_dirs b0 playerPos dest start ds ((next, some d) :: m) (acc ++ [next])
          else push_local_dirs b0 playerPos dest start ds m acc
      else push_local_dirs b0 playerPos dest start ds m acc
    | _, _ => push_local_dirs b0 playerPos dest start ds m acc

/-- `push_local` from `src/util.rs`. -/
def push_local (b0 : Board) (playerPos dest start : Pos) (m : PrevMap) (acc : List Pos) :
    Bool × PrevMap × List Pos :=
  push_local_dirs b0 playerPos dest start POSSIBLE_MOVES m acc

/-- The player position used when expanding a BFS node (`push_to` lines
200–205): the square the player ended on after pushing the crate here,
or the original player position for the root.  `none` models the
panicking `unwrap`s, proved unreachable. -/
def pushPlayer (origPlayer : Pos) (m : PrevMap) (p : Pos) : Option Pos :=
  match lookupPos m p with
  | none => none
  | some none => some origPlayer
  | some (some d) => (opposite d).go p

/-- One BFS level of `push_to`. -/
def pushLevel (b0 : Board) (origPlayer dest : Pos) :
    List Pos → PrevMap → List Pos → Option (PrevMap ⊕ (PrevMap × List Pos))
  | [], m, acc => some (.inr (m, acc))
  | p :: rest, m, acc =>
    match pushPlayer origPlayer m p with
    | none => none
    | some player =>
      match push_local b0 player dest p m acc with
      | (true, m2, _) => some (.inl m2)
      | (false, m2, acc2) => pushLevel b0 origPlayer dest rest m2 acc2

/-- The crate-position BFS loop of `push_to`, fuel-indexed like
`goLoop`. -/
def pushLoop (b0 : Board) (origPlayer dest : Pos) :
    Nat → PrevMap → List Pos → Option (Option PrevMap)
  | 0, _, _ => none
  | _ + 1, _, [] => some (none : Option PrevMap)
  | fuel + 1, m, p :: rest =>
    match pushLevel b0 origPlayer dest (p :: rest) m [] with
    | none => none
    | some (.inl mf) => some (some mf)
    | some (.inr (m2, acc2)) => pushLoop b0 origPlayer dest fuel m2 acc2

/-- The reassembly loop of `push_to` (lines 224–251): for each crate move,
replay the moves queued since the last replay, walk the player to the
push-point, then queue the push.  `none` models the `panic!` branch and
the `unwrap`s, all proved unreachable whenever the BFS found the
destination. -/
def reassemble (hal : SokobanState) (lastPos : Pos) (pending acc : List Direction) :
    List Direction → Option (List Direction)
  | [] => some acc
  | mv :: rest =>
    match replayE hal pending with
    | .error _ => none
    | .ok hal2 =>
      match (opposite mv).go lastPos with
      | none => none
      | some pp =>
        match go_to hal2.player pp hal2 with
        | none => none
        | some path =>
          match mv.go lastPos with
          | none => none
          | some nextPos =>
            reassemble hal2 nextPos (path ++ [mv]) (acc ++ path ++ [mv]) rest

/-- The entry guard of `push_to`. -/
def pushGuard (b : Board) (start dest : Pos) : Prop :=
  b.inBounds start ∧ b.tileAt start = .crate ∧
    b.inBounds dest ∧ b.tileAt dest = .floor

instance (b : Board) (s t : Pos) : Decidable (pushGuard b s t) := by
  unfold pushGuard; infer_instance

/-- `push_to` from `src/util.rs`. -/
def push_to (start dest : Pos) (s : SokobanState) : Option (List Direction) :=
  if pushGuard s.board start dest then
    if start = dest then some []
    else
      let b0 := s.board.setTile start .floor
      match pushLoop b0 s.player dest (searchFuel s.board) [(start, none)] [start] with
      | some (some mf) =>
        match reconstructF mf mf.length dest [] with
        | none => none
        | some crateMoves =>
          reassemble { s with container := (b0.setTile start .crate).cells }
            start [] [] crateMoves
      | _ => none
  else none

/-! ### Mutators (src/mutators.rs) -/

/-- `MutationResult` of the fuzzing host. -/
inductive MutationResult where
  | mutated | skipped
deriving DecidableEq, Repr

/-- The observable outcome of one `mutate` call: the result code, the
move list, the hallucination slot of the transformed input, and the
mutator's own remaining-budget list (`β` is `(crate, direction)` for
MoveCrate and `(crate, target)` for MoveCrateToTarget). -/
structure MutOutcome (β : Type) where
  result : MutationResult
  moves : List Direction
  hallucinated : Option SokobanState
  budget : List β
deriving DecidableEq, Repr

/-- The retry loop of `MoveCrateMutator::mutate` (lines 75–112).  The
budget vector is popped from the back; `none` models the panicking
`unwrap` on the replay and the unchecked `current[potential]` index. -/
def mcLoop (maxSize : Nat) (moves : List Direction) (current : SokobanState) :
    Nat → List (Pos × Direction) → Option (MutOutcome (Pos × Direction))
  | 0, _ => none
  | fuel + 1, budget =>
    match budget.getLast? with
    | none => some ⟨.skipped, moves, some current, []⟩
    | some (target, direction) =>
      let budget2 := budget.dropLast
      match direction.go target with
      | none => mcLoop maxSize moves current fuel budget2
      | some potential =>
        match current.board.tileAtChecked potential with
        | none => none
        | some t =>
          if t = .floor then
            match (opposite direction).go target with
            | none => mcLoop maxSize moves current fuel budget2
            | some walkDest =>
              match go_to current.player walkDest current with
              | none => mcLoop maxSize moves current fuel budget2
              | some mvs =>
                if mvs.length + moves.length > maxSize then
                  some ⟨.skipped, moves, some current, budget2⟩
                else
                  match replayE current mvs with
                  | .error _ => none
                  | .ok mid =>
                    match mid.move_player direction with
                    | .error _ => none
                    | .ok next =>
                      some ⟨.mutated, moves ++ mvs ++ [direction], some next, budget2⟩
          else mcLoop maxSize moves current fuel budget2

/-- `MoveCrateMutator::mutate`: `budget` is the testcase's
`moves_remaining` vector. -/
def moveCrateMutate (maxSize : Nat) (moves : List Direction) (hal : SokobanState)
    (budget : List (Pos × Direction)) : Option (MutOutcome (Pos × Direction)) :=
  if maxSize ≤ moves.length then some ⟨.skipped, moves, some hal, []⟩
  else mcLoop maxSize moves hal (budget.length + 1) budget

/-- The retry loop of `MoveCrateToTargetMutator::mutate` (lines 146–173). -/
def mttLoop (maxSize : Nat) (moves : List Direction) (current : SokobanState) :
    Nat → List (Pos × Pos) → Option (MutOutcome (Pos × Pos))
  | 0, _ => none
  | fuel + 1, budget =>
    match budget.getLast? with
    | none => some ⟨.skipped, moves, some current, []⟩
    | some (moved, target) =>
      let budget2 := budget.dropLast
      match push_to moved target current with
      | none => mttLoop maxSize moves current fuel budget2
      | some mvs =>
        if mvs.length + moves.length > maxSize then
          some ⟨.skipped, moves, some current, budget2⟩
        else
          match replayE current mvs with
          | .error _ => none
          | .ok next => some ⟨.mutated, moves ++ mvs, some next, budget2⟩

/-- `MoveCrateToTargetMutator::mutate`: `budget` is the testcase's
`move_to_targets_remaining` vector. -/
def moveCrateToTargetMutate (maxSize : Nat) (moves : List Direction) (hal : SokobanState)
    (budget : List (Pos × Pos)) : Option (MutOutcome (Pos × Pos)) :=
  if maxSize ≤ moves.length then some ⟨.skipped, moves, some hal, []⟩
  else mttLoop maxSize moves hal (budget.length + 1) budget

/-- Outcome of `OneShotMutator::mutate` (it never touches the budget
metadata). -/
structure OneShotOutcome where
  result : MutationResult
  moves : List Direction
  hallucinated : Option SokobanState
deriving DecidableEq, Repr

/-- The greedy pairing loop of `OneShotMutator::mutate` (lines 214–234).
`pairs` is the zip of the shuffled target list with the shuffled crate
list; the shuffles are oracle inputs of the model. -/
def osLoop (maxSize : Nat) :
    List (Pos × Pos) → SokobanState → List Direction → MutationResult →
      Option OneShotOutcome
  | [], current, moves, res => some ⟨res, moves, some current⟩
  | (target, moved) :: rest, current, moves, res =>
    match push_to moved target current with
    | none => some ⟨res, moves, some current⟩
    | some mvs =>
      if mvs.length + moves.length > maxSize then some ⟨res, moves, some current⟩
      else
        match replayE current mvs with
        | .error _ => none
        | .ok cur2 =>
          if cur2.in_solution_state then some ⟨.mutated, moves ++ mvs, some cur2⟩
          else osLoop maxSize rest cur2 (moves ++ mvs) .mutated

/-- `OneShotMutator::mutate`. -/
def oneShotMutate (maxSize : Nat) (moves : List Direction) (hal : SokobanState)
    (pairs : List (Pos × Pos)) : Option OneShotOutcome :=
  if maxSize ≤ moves.length then some ⟨.skipped, moves, some hal⟩
  else if hal.in_solution_state then some ⟨.skipped, moves, some hal⟩
  else osLoop maxSize pairs hal moves .skipped

/-! ### Mutation-budget metadata and scheduler (src/mutators.rs lines
14–43, src/scheduler.rs) -/

/-- `SokobanRemainingMutationsMetadata`. -/
structure SokobanRemainingMutationsMetadata where
  moves_remaining : List (Pos × Direction)
  move_to_targets_remaining : List (Pos × Pos)
deriving DecidableEq, Repr

/-- `SokobanRemainingMutationsMetadata::new`: the Cartesian products
crates × directions and crates × targets, in source order. -/
def SokobanRemainingMutationsMetadata.new (crates targets : List Pos) :
    SokobanRemainingMutationsMetadata :=
  { moves_remaining := (crates.map fun c => POSSIBLE_MOVES.map fun d => (c, d)).flatten
    move_to_targets_remaining := (crates.map fun c => targets.map fun t => (c, t)).flatten }

/-- `SokobanRemainingMutationsMetadata::remaining`. -/
def SokobanRemainingMutationsMetadata.remaining
    (m : SokobanRemainingMutationsMetadata) : Nat :=
  m.moves_remaining.length + m.move_to_targets_remaining.length

/-- `SokobanWeightSchedulerMetadata`; the `HashMap<CorpusId, usize>` is an
association list, corpus ids are naturals. -/
structure SokobanWeightSchedulerMetadata where
  weight : List (Nat × Nat)
  max_weight : Nat
  total_weight : Nat
  pruneable : List Nat
deriving DecidableEq, Repr

/-- `Rand::below` of the fuzzing host (libafl), modelled with the random
draw as an oracle: bounds of at most one yield zero, otherwise the draw
is reduced modulo the bound. -/
def randBelow (r bound : Nat) : Nat := if bound ≤ 1 then 0 else r % bound

/-- The weighted linear scan of `SokobanWeightScheduler::next` (lines
140–149): `checked_sub` keeps scanning while the draw is at least the
entry's weight; falling off the end is the `unreachable!()` panic,
modelled as `none`. -/
def schedScan : List (Nat × Nat) → Nat → Option Nat
  | [], _ => none
  | (idx, w) :: rest, sel => if sel < w then some idx else schedScan rest (sel - w)

/-- The selection performed by `SokobanWeightScheduler::next` after the
pruneable entries have been drained, with the random draw `r` as an
oracle. -/
def schedNext (md : SokobanWeightSchedulerMetadata) (r : Nat) : Option Nat :=
  schedScan md.weight (randBelow r md.total_weight)

/-- The weight computed by `SokobanWeightScheduler::on_evaluation` for an
entry with positive remaining budget: `1 + max_weight - remaining` in
`usize`; `none` models the debug-build underflow panic. -/
def onEvaluationComputed (maxWeight remaining : Nat) : Option Nat :=
  if remaining ≤ 1 + maxWeight then some (1 + maxWeight - remaining) else none

/-! ### Specification-side notions

`walkB` is the spec's "legal sequence of player moves treating Crate and
Wall as impassable": every step stays in bounds and lands on a Floor
tile.  It is defined from the spec's words, to be compared with the
behaviour of the BFS from the source. -/

/-- Walk a direction list from `p`, requiring every visited square to be
an in-bounds Floor tile; returns the final position. -/
def walkB (b : Board) (p : Pos) : List Direction → Option Pos
  | [] => some p
  | d :: ds =>
    (d.go p).bind fun q =>
      if b.inBounds q ∧ b.tileAt q = .floor then walkB b q ds else none

/-- `dest` is reachable from `p` through Floor tiles. -/
def reachableB (b : Board) (p dest : Pos) : Prop :=
  ∃ ms, walkB b p ms = some dest

/-- Reachable within `k` steps. -/
def distLe (b : Board) (a : Pos) (k : Nat) (p : Pos) : Prop :=
  ∃ ms, walkB b a ms = some p ∧ ms.length ≤ k

/-! ## Grid lemmas -/

/-- Board-level well-formedness. -/
def BWF (b : Board) : Prop := b.cells.length = b.rows * b.cols

/-! ## Reconstruction lemmas -/

def mapKeys (m : PrevMap) : List Pos := m.map Prod.fst

/-- Parent-closure of a flood-fill map: every stored direction points back
to a key. -/
def ParentClosed (m : PrevMap) : Prop :=
  ∀ p d, lookupPos m p = some (some d) →
    ∃ q, (opposite d).go p = some q ∧ memMap m q

/-! ## The `go_to` BFS invariant -/

/-- Per-entry facts of the walk flood-fill map. -/
structure GoMapInv (b : Board) (a dest : Pos) (m : PrevMap) : Prop where
  nodup : (mapKeys m).Nodup
  rootLookup : lookupPos m a = some none
  rootOnly : ∀ p, lookupPos m p = some none → p = a
  entryFloor : ∀ p d, lookupPos m p = some (some d) →
    b.inBounds p ∧ b.tileAt p = .floor
  entryParent : ∀ p d, lookupPos m p = some (some d) →
    ∃ q, (opposite d).go p = some q ∧ d.go q = some p ∧ memMap m q
  destFree : ¬ memMap m dest

/-- The reconstruction facts maintained for every key: the stored chain
reconstructs to a legal Floor walk whose length is at most `bound` and
such that no strictly shorter walk reaches the key. -/
def reconSpec (b : Board) (a : Pos) (m : PrevMap) (bound : Nat) : Prop :=
  ∀ p, memMap m p → ∃ ms, reconstructF m m.length p [] = some ms ∧
    walkB b a ms = some p ∧ ms.length ≤ bound ∧
    ∀ j, j < ms.length → ¬ distLe b a j p

/-- Mid-level invariant of the `go_to` BFS: `m` holds every node within
distance `k` plus the already-inserted nodes of distance `k + 1`, which
are exactly the `acc` list. -/
structure GoMidInv (b : Board) (a dest : Pos) (k : Nat) (m : PrevMap)
    (acc : List Pos) : Prop where
  map : GoMapInv b a dest m
  oldSub : ∀ p, distLe b a k p → memMap m p
  newChar : ∀ p, memMap m p → distLe b a k p ∨ p ∈ acc
  accSpec : ∀ p, p ∈ acc → memMap m p ∧ distLe b a (k + 1) p ∧ ¬ distLe b a k p
  accNodup : acc.Nodup
  recon : reconSpec b a m (k + 1)

/-- What holds of the final map when the BFS finds the destination: the
reconstruction yields a shortest legal Floor walk to it. -/
def GoFound (b : Board) (a dest : Pos) (mf : PrevMap) : Prop :=
  ∃ ms, reconstructF mf mf.length dest [] = some ms ∧ walkB b a ms = some dest ∧
    ∀ ms2, walkB b a ms2 = some dest → ms.length ≤ ms2.length

/-- The reconstruction facts carried for the frontier node being
expanded: a stored walk of length at most `k`. -/
def nodeRec (b : Board) (a : Pos) (k : Nat) (m : PrevMap) (p : Pos) : Prop :=
  ∃ msp, reconstructF m m.length p [] = some msp ∧
    walkB b a msp = some p ∧ msp.length ≤ k

/-- The invariant holding at the start of each `go_to` BFS level: the map
holds exactly the nodes within distance `k` and the frontier is exactly
the nodes at distance `k`. -/
structure GoInv (b : Board) (a dest : Pos) (k : Nat) (m : PrevMap)
    (F : List Pos) : Prop where
  map : GoMapInv b a dest m
  keysIff : ∀ p, memMap m p ↔ distLe b a k p
  frontIff : ∀ p, p ∈ F ↔ (distLe b a k p ∧ ∀ j, j < k → ¬ distLe b a j p)
  frontNodup : F.Nodup
  recon : reconSpec b a m k

/-- The facts recorded along a reconstructed crate path: starting with the
crate at `c` and the player at `player`, each move pushes the crate one
square over Floor tiles of the crate-free board `b0`, the push-point is a
Floor tile, and the player can walk to it; `e` is the final crate square
and `pe` the square the player occupies after the final push. -/
def ChainOK (b0 : Board) : Pos → Pos → List Direction → Pos → Pos → Prop
  | player, c, [], e, pe => c = e ∧ player = pe
  | player, c, mv :: rest, e, pe => ∃ c1 pp,
      mv.go c = some c1 ∧ (opposite mv).go c = some pp ∧
      b0.inBounds c1 ∧ b0.tileAt c1 = .floor ∧
      b0.inBounds pp ∧ b0.tileAt pp = .floor ∧
      canGoToB player pp (b0.setTile c .crate) = true ∧
      ChainOK b0 c c1 rest e pe

/-- The invariant of the crate-position BFS of `push_to`, over the
crate-free board `b0` with crate start square `a`. -/
structure PushInv (b0 : Board) (origPlayer a : Pos) (m : PrevMap) : Prop where
  nodup : (mapKeys m).Nodup
  rootLookup : lookupPos m a = some none
  rootOnly : ∀ p, lookupPos m p = some none → p = a
  entryFloor : ∀ p d, lookupPos m p = some (some d) →
    b0.inBounds p ∧ b0.tileAt p = .floor
  entryParent : ∀ p d, lookupPos m p = some (some d) →
    ∃ q, (opposite d).go p = some q ∧ d.go q = some p ∧ memMap m q
  recon : ∀ p, memMap m p → ∃ ms pl,
    reconstructF m m.length p [] = some ms ∧
    pushPlayer origPlayer m p = some pl ∧
    ChainOK b0 origPlayer a ms p pl

/-- The state on which the reassembly of `push_to` starts. -/
def pushHal (s : SokobanState) (c : Pos) : SokobanState :=
  { s with container := ((s.board.setTile c .floor).setTile c .crate).cells }

/-! ## Example states used by witnesses and counterexamples -/

/-- A 3 × 3 all-Floor room with a single crate in the centre, the player
in the corner, and one target below the crate. -/
def exCrateMid : SokobanState :=
  { rows := 3, cols := 3, container := (List.replicate 9 Tile.floor).set 4 .crate,
    player := (0, 0), targets := [(2, 1)] }

/-- Like `exCrateMid` but with a Wall below the crate and no targets. -/
def exWallBelow : SokobanState :=
  { rows := 3, cols := 3,
    container := ((List.replicate 9 Tile.floor).set 4 .crate).set 7 .wall,
    player := (0, 0), targets := [] }

/-- The crate predicate used for counting. -/
def isCrate (t : Tile) : Bool := decide (t = Tile.crate)

/-! ## Scheduler lifecycle model

`SokobanWeightScheduler` and the corpus evolve together: `on_add`
(src/scheduler.rs lines 54-87) replays the new testcase's move list over
the initial puzzle, attaches to the testcase a fresh mutation budget
computed from the replayed state, inserts the budget's `remaining` count
into the weight map, and initialises `max_weight` from it when
`max_weight` is still 0, i.e. on the first add; the MoveCrate and
MoveCrateToTarget mutators pop candidates from the current testcase's
budget; `next` can remove corpus entries; and `on_evaluation` and `next`
otherwise only rewrite the weight map, `total_weight` and `pruneable`,
never `max_weight` or a testcase's budget.  `CorpusStep` models exactly
these operations on the scheduler metadata paired with the per-testcase
budgets; corpus ids are fresh on add, so the `HashMap::insert` of
`on_add` is a cons. -/

/-- The scheduler metadata together with every live testcase's current
`SokobanRemainingMutationsMetadata`. -/
structure CorpusModel where
  md : SokobanWeightSchedulerMetadata
  entries : List SokobanRemainingMutationsMetadata
deriving DecidableEq, Repr

/-- The state after `SokobanWeightScheduler::new`: default metadata and
no testcases. -/
def corpusInit : CorpusModel :=
  { md := { weight := [], max_weight := 0, total_weight := 0, pruneable := [] },
    entries := [] }

/-- `SokobanWeightScheduler::on_add` (lines 54-87): replay the move list
over the initial puzzle (the `unwrap` on a failed replay modelled as
`none`), build the budget from the replayed state's crates and targets,
record its `remaining` in the weight map and initialise `max_weight`
from it when it is still 0. -/
def corpusAdd (init : SokobanState) (ms : List Direction) (idx : Nat)
    (cm : CorpusModel) : Option CorpusModel :=
  match replayE init ms with
  | .error _ => none
  | .ok h =>
    let tc := SokobanRemainingMutationsMetadata.new (find_crates h) h.targets
    some { md := { weight := (idx, tc.remaining) :: cm.md.weight,
                   max_weight := if cm.md.max_weight = 0 then tc.remaining
                                 else cm.md.max_weight,
                   total_weight := cm.md.total_weight + tc.remaining,
                   pruneable := cm.md.pruneable },
           entries := cm.entries ++ [tc] }

/-- The common initial budget of every testcase added over `init`:
4·|crates| + |crates|·|targets|. -/
def initialBudget (init : SokobanState) : Nat :=
  4 * (find_crates init).length + (find_crates init).length * init.targets.length

/-- One step of the fuzzer as it touches the scheduler metadata and the
testcase budgets: an `on_add`; a budget-consuming mutator call on some
testcase, whose new budget is whatever the call leaves in the testcase's
metadata; a corpus removal performed by `next`; or the weight-map
bookkeeping of `on_evaluation` and `next`, which never changes
`max_weight` or a budget. -/
inductive CorpusStep (init : SokobanState) (cm : CorpusModel) : CorpusModel → Prop
  | add (ms : List Direction) (idx : Nat) {cm2 : CorpusModel}
      (h : corpusAdd init ms idx cm = some cm2) : CorpusStep init cm cm2
  | moveCrate (i maxSize : Nat) (moves : List Direction) (hal : SokobanState)
      (e : SokobanRemainingMutationsMetadata) (r : MutOutcome (Pos × Direction))
      (he : cm.entries.get? i = some e)
      (hm : moveCrateMutate maxSize moves hal e.moves_remaining = some r) :
      CorpusStep init cm
        { cm with entries :=
            cm.entries.set i { e with moves_remaining := r.budget } }
  | moveCrateToTarget (i maxSize : Nat) (moves : List Direction) (hal : SokobanState)
      (e : SokobanRemainingMutationsMetadata) (r : MutOutcome (Pos × Pos))
      (he : cm.entries.get? i = some e)
      (hm : moveCrateToTargetMutate maxSize moves hal e.move_to_targets_remaining =
        some r) :
      CorpusStep init cm
        { cm with entries :=
            cm.entries.set i { e with move_to_targets_remaining := r.budget } }
  | remove (i : Nat) :
      CorpusStep init cm { cm with entries := cm.entries.eraseIdx i }
  | bookkeeping (w2 : List (Nat × Nat)) (tw2 : Nat) (pr2 : List Nat) :
      CorpusStep init cm
        { cm with md := { weight := w2, max_weight := cm.md.max_weight,
                          total_weight := tw2, pruneable := pr2 } }

/-- The scheduler states reachable from `corpusInit`. -/
inductive CorpusReach (init : SokobanState) : CorpusModel → Prop
  | refl : CorpusReach init corpusInit
  | step {cm cm2 : CorpusModel} (h : CorpusReach init cm)
      (hs : CorpusStep init cm cm2) : CorpusReach init cm2

/-- The budget invariant maintained by every step: `max_weight` is 0 or
the common initial budget, it is 0 only while no testcase is live (or
the common budget itself is 0), and every live budget is bounded by the
common initial budget. -/
def CorpusInv (init : SokobanState) (cm : CorpusModel) : Prop :=
  (cm.md.max_weight = 0 ∨ cm.md.max_weight = initialBudget init) ∧
  (cm.md.max_weight = 0 → cm.entries = [] ∨ initialBudget init = 0) ∧
  (∀ e ∈ cm.entries, e.remaining ≤ initialBudget init)

/-- The corpus reached from `corpusInit` over `exCrateMid` by adding the
testcase with the empty move list as corpus id 0. -/
def exCorpus : CorpusModel :=
  { md := { weight := [(0, 5)], max_weight := 5, total_weight := 5, pruneable := [] },
    entries := [SokobanRemainingMutationsMetadata.new (find_crates exCrateMid)
      exCrateMid.targets] }

/-! ## Basic lemmas -/

theorem opposite_go (d : Direction) (p q : Pos) (h : d.go p = some q) :
    (opposite d).go q = some p := by
  obtain ⟨pr, pc⟩ := p
  cases d <;> simp only [Direction.go, opposite] at h ⊢
  · split at h
    · exact absurd h (by simp)
    · rename_i h0
      cases h
      have : pr - 1 + 1 = pr := Nat.sub_add_cancel (Nat.one_le_iff_ne_zero.mpr h0)
      simp [this]
  · cases h
    simp
  · split at h
    · exact absurd h (by simp)
    · rename_i h0
      cases h
      have : pc - 1 + 1 = pc := Nat.sub_add_cancel (Nat.one_le_iff_ne_zero.mpr h0)
      simp [this]
  · cases h
    simp

theorem go_ne (d : Direction) (p q : Pos) (h : d.go p = some q) : q ≠ p := by
  obtain ⟨pr, pc⟩ := p
  cases d <;> simp only [Direction.go] at h
  · split at h
    · exact absurd h (by simp)
    · rename_i h0
      cases h
      intro he
      rw [Prod.mk.injEq] at he
      omega
  · cases h
    intro he
    rw [Prod.mk.injEq] at he
    omega
  · split at h
    · exact absurd h (by simp)
    · rename_i h0
      cases h
      intro he
      rw [Prod.mk.injEq] at he
      omega
  · cases h
    intro he
    rw [Prod.mk.injEq] at he
    omega

theorem walkB_append (b : Board) (p : Pos) (ms ns : List Direction) :
    walkB b p (ms ++ ns) = (walkB b p ms).bind fun q => walkB b q ns := by
  induction ms generalizing p with
  | nil => simp [walkB]
  | cons d ds ih =>
    simp only [List.cons_append, walkB]
    cases d.go p with
    | none => simp
    | some q =>
      by_cases h : b.inBounds q ∧ b.tileAt q = .floor <;> simp [h, ih]

theorem replayE_append (s : SokobanState) (ms ns : List Direction) :
    replayE s (ms ++ ns) =
      match replayE s ms with
      | .ok t => replayE t ns
      | .error e => .error e := by
  induction ms generalizing s with
  | nil => simp [replayE]
  | cons d ds ih =>
    simp only [List.cons_append, replayE]
    cases s.move_player d with
    | ok s2 => exact ih s2
    | error e => rfl

@[simp] theorem board_player_update (s : SokobanState) (p : Pos) :
    ({ s with player := p } : SokobanState).board = s.board := rfl

theorem move_player_floor (s : SokobanState) (d : Direction) (q : Pos)
    (hgo : d.go s.player = some q) (hb : s.board.inBounds q)
    (hf : s.board.tileAt q = .floor) :
    s.move_player d = .ok { s with player := q } := by
  simp [SokobanState.move_player, hgo, hb, SokobanState.tileAt, hf]

/-- Replaying a legal Floor walk moves only the player. -/
theorem walk_replay (s : SokobanState) (ms : List Direction) (q : Pos)
    (h : walkB s.board s.player ms = some q) :
    replayE s ms = .ok { s with player := q } := by
  induction ms generalizing s with
  | nil =>
    simp only [walkB] at h
    cases h
    rfl
  | cons d ds ih =>
    simp only [walkB] at h
    cases hgo : d.go s.player with
    | none => rw [hgo] at h; exact absurd h (by simp)
    | some r =>
      rw [hgo, Option.some_bind] at h
      by_cases hc : s.board.inBounds r ∧ s.board.tileAt r = .floor
      · rw [if_pos hc] at h
        have hmv := move_player_floor s d r hgo hc.1 hc.2
        have := ih { s with player := r } (by simpa using h)
        simp only [replayE, hmv, this]
      · rw [if_neg hc] at h
        exact absurd h (by simp)

theorem WF_board {s : SokobanState} (h : WF s) : BWF s.board := h

theorem rmIdx_lt {b : Board} (hb : BWF b) {p : Pos} (hp : b.inBounds p) :
    rmIdx b.cols p < b.cells.length := by
  obtain ⟨h1, h2⟩ := hp
  rw [hb]
  unfold rmIdx
  calc p.1 * b.cols + p.2 < p.1 * b.cols + b.cols := by omega
    _ = (p.1 + 1) * b.cols := by ring
    _ ≤ b.rows * b.cols := Nat.mul_le_mul_right _ h1

theorem rmIdx_fst {cols : Nat} {p : Pos} (hp : p.2 < cols) :
    rmIdx cols p / cols = p.1 := by
  have hc : 0 < cols := Nat.lt_of_le_of_lt (Nat.zero_le _) hp
  unfold rmIdx
  rw [Nat.mul_comm, Nat.mul_add_div hc, Nat.div_eq_of_lt hp]
  omega

theorem rmIdx_snd {cols : Nat} {p : Pos} (hp : p.2 < cols) :
    rmIdx cols p % cols = p.2 := by
  unfold rmIdx
  rw [Nat.mul_comm, Nat.mul_add_mod, Nat.mod_eq_of_lt hp]

theorem rmIdx_inj {cols : Nat} {p q : Pos} (hp : p.2 < cols) (hq : q.2 < cols)
    (h : rmIdx cols p = rmIdx cols q) : p = q := by
  have h1 : p.1 = q.1 := by rw [← rmIdx_fst hp, ← rmIdx_snd hp] at *; rw [h, rmIdx_fst hq]
  have h2 : p.2 = q.2 := by rw [← rmIdx_snd hp, h, rmIdx_snd hq]
  exact Prod.ext h1 h2

@[simp] theorem setTile_rows (b : Board) (p : Pos) (t : Tile) :
    (b.setTile p t).rows = b.rows := rfl

@[simp] theorem setTile_cols (b : Board) (p : Pos) (t : Tile) :
    (b.setTile p t).cols = b.cols := rfl

@[simp] theorem setTile_cells_length (b : Board) (p : Pos) (t : Tile) :
    (b.setTile p t).cells.length = b.cells.length := by
  unfold Board.setTile
  simp

@[simp] theorem setTile_inBounds (b : Board) (p q : Pos) (t : Tile) :
    (b.setTile p t).inBounds q ↔ b.inBounds q := Iff.rfl

theorem BWF_setTile {b : Board} (hb : BWF b) (p : Pos) (t : Tile) :
    BWF (b.setTile p t) := by
  unfold BWF at *
  simpa using hb

theorem tileAt_setTile_same {b : Board} (hb : BWF b) {p : Pos} (hp : b.inBounds p)
    (t : Tile) : (b.setTile p t).tileAt p = t := by
  unfold Board.tileAt Board.setTile
  simp only
  rw [List.getD_eq_getElem?_getD, List.getElem?_set_self (rmIdx_lt hb hp)]
  rfl

theorem tileAt_setTile_ne {b : Board} {p q : Pos} (t : Tile)
    (h : rmIdx b.cols p ≠ rmIdx b.cols q) :
    (b.setTile p t).tileAt q = b.tileAt q := by
  unfold Board.tileAt Board.setTile
  simp only
  rw [List.getD_eq_getElem?_getD, List.getD_eq_getElem?_getD, List.getElem?_set_ne h]

theorem tileAt_setTile_of_ne {b : Board} {p q : Pos} (t : Tile)
    (hp : p.2 < b.cols) (hq : q.2 < b.cols) (hne : p ≠ q) :
    (b.setTile p t).tileAt q = b.tileAt q :=
  tileAt_setTile_ne t fun hidx => hne (rmIdx_inj hp hq hidx)

theorem list_set_getD (l : List Tile) : ∀ i, l.set i (l.getD i .wall) = l := by
  induction l with
  | nil => intro i; rfl
  | cons a tl ih =>
    intro i
    cases i with
    | zero => rfl
    | succ j =>
      show a :: tl.set j (tl.getD j .wall) = a :: tl
      rw [ih j]

theorem setTile_tileAt_self {b : Board} {p : Pos} {t : Tile} (h : b.tileAt p = t) :
    b.setTile p t = b := by
  obtain ⟨rows, cols, cells⟩ := b
  unfold Board.setTile
  simp only [Board.mk.injEq, true_and]
  rw [← h]
  exact list_set_getD _ _

theorem setTile_setTile (b : Board) (p : Pos) (t1 t2 : Tile) :
    (b.setTile p t1).setTile p t2 = b.setTile p t2 := by
  unfold Board.setTile
  simp [List.set_set]

/-! ## Flood-fill map lemmas -/

theorem lookupPos_cons (q : Pos) (v : Option Direction) (m : PrevMap) (p : Pos) :
    lookupPos ((q, v) :: m) p = if p = q then some v else lookupPos m p := rfl

theorem memMap_nil (p : Pos) : ¬ memMap [] p := by simp [memMap, lookupPos]

theorem memMap_cons {q : Pos} {v : Option Direction} {m : PrevMap} {p : Pos} :
    memMap ((q, v) :: m) p ↔ p = q ∨ memMap m p := by
  unfold memMap
  rw [lookupPos_cons]
  by_cases h : p = q <;> simp [h]

theorem memMap_of_lookup {m : PrevMap} {p : Pos} {v : Option Direction}
    (h : lookupPos m p = some v) : memMap m p := by
  unfold memMap
  rw [h]
  rfl

theorem lookup_cons_of_ne {q : Pos} {v : Option Direction} {m : PrevMap} {p : Pos}
    (h : p ≠ q) : lookupPos ((q, v) :: m) p = lookupPos m p := by
  rw [lookupPos_cons, if_neg h]

theorem lookup_cons_fresh {q : Pos} {v : Option Direction} {m : PrevMap} {p : Pos}
    (hmem : memMap m p) (hq : ¬ memMap m q) :
    lookupPos ((q, v) :: m) p = lookupPos m p := by
  refine lookup_cons_of_ne fun he => hq ?_
  exact he ▸ hmem

/-! ## Walk lemmas -/

theorem distLe_mono {b : Board} {a p : Pos} {j k : Nat} (hjk : j ≤ k)
    (h : distLe b a j p) : distLe b a k p := by
  obtain ⟨ms, h1, h2⟩ := h
  exact ⟨ms, h1, Nat.le_trans h2 hjk⟩

theorem distLe_zero {b : Board} {a p : Pos} : distLe b a 0 p ↔ p = a := by
  constructor
  · rintro ⟨ms, h1, h2⟩
    have hms : ms = [] := List.eq_nil_of_length_eq_zero (Nat.le_zero.mp h2)
    subst hms
    exact (Option.some.inj h1).symm
  · rintro rfl
    exact ⟨[], rfl, Nat.le_refl 0⟩

theorem walkB_snoc {b : Board} {a q p : Pos} {ms : List Direction} {d : Direction}
    (h1 : walkB b a ms = some q) (h2 : d.go q = some p)
    (h3 : b.inBounds p ∧ b.tileAt p = .floor) :
    walkB b a (ms ++ [d]) = some p := by
  rw [walkB_append, h1]
  simp [walkB, h2, h3]

theorem walkB_snoc_inv {b : Board} {a p : Pos} {ms : List Direction} {d : Direction}
    (h : walkB b a (ms ++ [d]) = some p) :
    ∃ q, walkB b a ms = some q ∧ d.go q = some p ∧
      b.inBounds p ∧ b.tileAt p = .floor := by
  rw [walkB_append] at h
  cases hw : walkB b a ms with
  | none => rw [hw] at h; exact absurd h (by simp)
  | some q =>
    rw [hw, Option.some_bind] at h
    simp only [walkB] at h
    cases hgo : d.go q with
    | none => rw [hgo] at h; exact absurd h (by simp)
    | some r =>
      rw [hgo, Option.some_bind] at h
      by_cases hc : b.inBounds r ∧ b.tileAt r = .floor
      · rw [if_pos hc] at h
        cases h
        exact ⟨q, rfl, hgo, hc⟩
      · rw [if_neg hc] at h
        exact absurd h (by simp)

/-- A path of length `k + 1` decomposes into a path of length `k` to a
predecessor plus a final step. -/
theorem distLe_succ_inv {b : Board} {a p : Pos} {k : Nat}
    (h : distLe b a (k + 1) p) (hnot : ¬ distLe b a k p) :
    ∃ (q : Pos) (d : Direction), distLe b a k q ∧ d.go q = some p ∧
      b.inBounds p ∧ b.tileAt p = .floor := by
  obtain ⟨ms, h1, h2⟩ := h
  rcases List.eq_nil_or_concat ms with rfl | ⟨ms1, d, rfl⟩
  · exact absurd ⟨[], h1, Nat.zero_le _⟩ hnot
  · rw [List.concat_eq_append] at h1
    obtain ⟨q, hw, hgo, hc⟩ := walkB_snoc_inv h1
    have hl : ms1.length ≤ k := by
      simp only [List.length_concat] at h2
      omega
    exact ⟨q, d, ⟨ms1, hw, hl⟩, hgo, hc⟩

theorem lookup_none_iff {m : PrevMap} {p : Pos} :
    lookupPos m p = none ↔ p ∉ mapKeys m := by
  induction m with
  | nil => simp [lookupPos, mapKeys]
  | cons e m ih =>
    obtain ⟨q, v⟩ := e
    rw [lookupPos_cons]
    by_cases h : p = q
    · simp [h, mapKeys]
    · simp only [if_neg h, ih, mapKeys, List.map_cons, List.mem_cons]
      constructor
      · intro hn hc
        rcases hc with hc | hc
        · exact h hc
        · exact hn hc
      · intro hn hc
        exact hn (Or.inr hc)

theorem memMap_iff_keys {m : PrevMap} {p : Pos} : memMap m p ↔ p ∈ mapKeys m := by
  unfold memMap
  rw [Option.isSome_iff_ne_none]
  constructor
  · intro h
    by_contra hc
    exact h (lookup_none_iff.mpr hc)
  · intro h hc
    exact (lookup_none_iff.mp hc) h

theorem reconstructF_acc (m : PrevMap) :
    ∀ (fuel : Nat) (p : Pos) (acc : List Direction),
      reconstructF m fuel p acc = (reconstructF m fuel p []).map (· ++ acc) := by
  intro fuel
  induction fuel with
  | zero => intro p acc; rfl
  | succ f ih =>
    intro p acc
    simp only [reconstructF]
    cases hl : lookupPos m p with
    | none => simp [hl]
    | some v =>
      cases v with
      | none => simp [hl]
      | some d =>
        cases hgo : (opposite d).go p with
        | none => simp [hl, hgo]
        | some parent =>
          simp only [hl, hgo]
          rw [ih parent (d :: acc), ih parent [d]]
          cases reconstructF m f parent [] with
          | none => rfl
          | some ms => simp

theorem reconstructF_mono {m : PrevMap} :
    ∀ {fuel : Nat} {p : Pos} {acc ms : List Direction} {fuel2 : Nat},
      reconstructF m fuel p acc = some ms → fuel ≤ fuel2 →
      reconstructF m fuel2 p acc = some ms := by
  intro fuel
  induction fuel with
  | zero => intro p acc ms fuel2 h; exact absurd h (by simp [reconstructF])
  | succ f ih =>
    intro p acc ms fuel2 h hle
    obtain ⟨f2, rfl⟩ : ∃ f2, fuel2 = f2 + 1 :=
      ⟨fuel2 - 1, by omega⟩
    simp only [reconstructF] at h ⊢
    cases hl : lookupPos m p with
    | none => simp only [hl] at h ⊢; exact h
    | some v =>
      cases v with
      | none => simp only [hl] at h ⊢; exact h
      | some d =>
        cases hgo : (opposite d).go p with
        | none => simp only [hl, hgo] at h; exact absurd h (by simp)
        | some parent =>
          simp only [hl, hgo] at h ⊢
          exact ih h (by omega)

theorem reconstructF_cons_fresh {m : PrevMap} {q : Pos} {w : Option Direction}
    (hfresh : ¬ memMap m q) (hclosed : ParentClosed m) :
    ∀ (fuel : Nat) (p : Pos) (acc : List Direction), memMap m p →
      reconstructF ((q, w) :: m) fuel p acc = reconstructF m fuel p acc := by
  intro fuel
  induction fuel with
  | zero => intro p acc _; rfl
  | succ f ih =>
    intro p acc hp
    have hpq : p ≠ q := fun he => hfresh (he ▸ hp)
    simp only [reconstructF, lookup_cons_of_ne hpq]
    cases hl : lookupPos m p with
    | none => simp [hl]
    | some v =>
      cases v with
      | none => simp [hl]
      | some d =>
        obtain ⟨r, hgo, hr⟩ := hclosed p d hl
        simp only [hl, hgo]
        exact ih r (d :: acc) hr

theorem exists_least {P : Nat → Prop} (h : ∃ n, P n) :
    ∃ n, P n ∧ ∀ j, j < n → ¬ P j := by
  classical
  exact ⟨Nat.find h, Nat.find_spec h, fun j hj => Nat.find_min h hj⟩

/-- A nodup list of in-bounds keys has at most `rows * cols` entries. -/
theorem keys_length_le {b : Board} {m : PrevMap}
    (hnd : (mapKeys m).Nodup) (hbnd : ∀ p ∈ mapKeys m, b.inBounds p) :
    m.length ≤ b.rows * b.cols := by
  have hlen : (mapKeys m).length = m.length := List.length_map _ _
  rw [← hlen]
  have hcard : (mapKeys m).toFinset.card = (mapKeys m).length :=
    List.toFinset_card_of_nodup hnd
  rw [← hcard]
  have hsub : (mapKeys m).toFinset ⊆ Finset.range b.rows ×ˢ Finset.range b.cols := by
    intro p hp
    rw [List.mem_toFinset] at hp
    obtain ⟨h1, h2⟩ := hbnd p hp
    rw [Finset.mem_product, Finset.mem_range, Finset.mem_range]
    exact ⟨h1, h2⟩
  calc (mapKeys m).toFinset.card
      ≤ (Finset.range b.rows ×ˢ Finset.range b.cols).card := Finset.card_le_card hsub
    _ = b.rows * b.cols := by rw [Finset.card_product, Finset.card_range, Finset.card_range]

theorem GoMapInv.parentClosed {b : Board} {a dest : Pos} {m : PrevMap}
    (h : GoMapInv b a dest m) : ParentClosed m := by
  intro p d hl
  obtain ⟨q, h1, _, h3⟩ := h.entryParent p d hl
  exact ⟨q, h1, h3⟩

theorem lookup_of_memMap {m : PrevMap} {p : Pos} (h : memMap m p) :
    ∃ v, lookupPos m p = some v := by
  unfold memMap at h
  exact Option.isSome_iff_exists.mp h

theorem GoMapInv.keysBound {b : Board} {a dest : Pos} {m : PrevMap}
    (h : GoMapInv b a dest m) (ha : b.inBounds a) :
    ∀ p ∈ mapKeys m, b.inBounds p := by
  intro p hp
  obtain ⟨v, hv⟩ := lookup_of_memMap (memMap_iff_keys.mpr hp)
  cases v with
  | none => exact (h.rootOnly p hv) ▸ ha
  | some d => exact (h.entryFloor p d hv).1

theorem reconstructF_insert {m : PrevMap} {next p : Pos} {d : Direction}
    {ms : List Direction} (hclosed : ParentClosed m) (hfresh : ¬ memMap m next)
    (hp : memMap m p) (hgo : d.go p = some next)
    (hrec : reconstructF m m.length p [] = some ms) :
    reconstructF ((next, some d) :: m) ((next, some d) :: m).length next [] =
      some (ms ++ [d]) := by
  have hlen : ((next, some d) :: m).length = m.length + 1 := rfl
  rw [hlen]
  have hl2 : lookupPos ((next, some d) :: m) next = some (some d) := by
    rw [lookupPos_cons, if_pos rfl]
  simp only [reconstructF, hl2, opposite_go d p next hgo]
  rw [reconstructF_cons_fresh hfresh hclosed m.length p [d] hp]
  rw [reconstructF_acc m m.length p [d], hrec]
  rfl

/-- Transport of a key's reconstruction fact through a fresh insert. -/
theorem recon_transport {m : PrevMap} {next : Pos} {w : Option Direction} {p : Pos}
    {ms : List Direction} (hclosed : ParentClosed m) (hfresh : ¬ memMap m next)
    (hp : memMap m p) (hrec : reconstructF m m.length p [] = some ms) :
    reconstructF ((next, w) :: m) ((next, w) :: m).length p [] = some ms := by
  have hlen : ((next, w) :: m).length = m.length + 1 := rfl
  rw [hlen]
  rw [reconstructF_cons_fresh hfresh hclosed (m.length + 1) p [] hp]
  exact reconstructF_mono hrec (Nat.le_succ _)

theorem memMap_cons_of {m : PrevMap} {e : Pos × Option Direction} {p : Pos}
    (h : memMap m p) : memMap (e :: m) p := by
  obtain ⟨q, v⟩ := e
  exact memMap_cons.mpr (Or.inr h)

theorem nodeRec_transport {b : Board} {a : Pos} {k : Nat} {m : PrevMap}
    {p next : Pos} {w : Option Direction} (hclosed : ParentClosed m)
    (hfresh : ¬ memMap m next) (hp : memMap m p)
    (h : nodeRec b a k m p) : nodeRec b a k ((next, w) :: m) p := by
  obtain ⟨msp, h1, h2, h3⟩ := h
  exact ⟨msp, recon_transport hclosed hfresh hp h1, h2, h3⟩

theorem goMidInv_insert {b : Board} {a dest : Pos} {k : Nat} {m : PrevMap}
    {acc : List Pos} {p next : Pos} {d : Direction}
    (hmid : GoMidInv b a dest k m acc) (hp : memMap m p)
    (hprec : nodeRec b a k m p) (hgo : d.go p = some next)
    (hin : b.inBounds next) (hfl : b.tileAt next = .floor)
    (hfresh : ¬ memMap m next) (hnd : next ≠ dest) :
    GoMidInv b a dest k ((next, some d) :: m) (acc ++ [next]) := by
  obtain ⟨msp, hr, hw, hb⟩ := hprec
  have hclosed := hmid.map.parentClosed
  have hnotk : ¬ distLe b a k next := fun hc => hfresh (hmid.oldSub next hc)
  have hwalkn : walkB b a (msp ++ [d]) = some next := walkB_snoc hw hgo ⟨hin, hfl⟩
  have hlen1 : (msp ++ [d]).length ≤ k + 1 := by
    rw [List.length_append]
    simp only [List.length_cons, List.length_nil]
    omega
  have hdlen : distLe b a (k + 1) next := ⟨msp ++ [d], hwalkn, hlen1⟩
  have hamem : memMap m a := memMap_of_lookup hmid.map.rootLookup
  have hane : a ≠ next := fun he => hfresh (he ▸ hamem)
  refine ⟨⟨?_, ?_, ?_, ?_, ?_, ?_⟩, ?_, ?_, ?_, ?_, ?_⟩
  · -- nodup
    have : mapKeys ((next, some d) :: m) = next :: mapKeys m := rfl
    rw [this, List.nodup_cons]
    exact ⟨fun hc => hfresh (memMap_iff_keys.mpr hc), hmid.map.nodup⟩
  · -- rootLookup
    rw [lookup_cons_of_ne hane]
    exact hmid.map.rootLookup
  · -- rootOnly
    intro q hq
    by_cases hqn : q = next
    · subst hqn
      rw [lookupPos_cons, if_pos rfl] at hq
      exact absurd (Option.some.inj hq) (by simp)
    · rw [lookup_cons_of_ne hqn] at hq
      exact hmid.map.rootOnly q hq
  · -- entryFloor
    intro q d2 hq
    by_cases hqn : q = next
    · subst hqn
      rw [lookupPos_cons, if_pos rfl] at hq
      exact ⟨hin, hfl⟩
    · rw [lookup_cons_of_ne hqn] at hq
      exact hmid.map.entryFloor q d2 hq
  · -- entryParent
    intro q d2 hq
    by_cases hqn : q = next
    · subst hqn
      rw [lookupPos_cons, if_pos rfl] at hq
      cases Option.some.inj (Option.some.inj hq)
      exact ⟨p, opposite_go d p _ hgo, hgo, memMap_cons_of hp⟩
    · rw [lookup_cons_of_ne hqn] at hq
      obtain ⟨r, h1, h2, h3⟩ := hmid.map.entryParent q d2 hq
      exact ⟨r, h1, h2, memMap_cons_of h3⟩
  · -- destFree
    intro hc
    rcases memMap_cons.mp hc with hc | hc
    · exact hnd hc.symm
    · exact hmid.map.destFree hc
  · -- oldSub
    intro q hq
    exact memMap_cons_of (hmid.oldSub q hq)
  · -- newChar
    intro q hq
    rcases memMap_cons.mp hq with rfl | hq
    · exact Or.inr (by simp)
    · rcases hmid.newChar q hq with h | h
      · exact Or.inl h
      · exact Or.inr (List.mem_append_left _ h)
  · -- accSpec
    intro q hq
    rcases List.mem_append.mp hq with hq | hq
    · obtain ⟨h1, h2, h3⟩ := hmid.accSpec q hq
      exact ⟨memMap_cons_of h1, h2, h3⟩
    · have hqe : q = next := by simpa using hq
      subst hqe
      exact ⟨memMap_cons.mpr (Or.inl rfl), hdlen, hnotk⟩
  · -- accNodup
    rw [List.nodup_append]
    refine ⟨hmid.accNodup, List.nodup_singleton _, ?_⟩
    intro q hq hq2
    have hqe : q = next := by simpa using hq2
    subst hqe
    exact hfresh (hmid.accSpec q hq).1
  · -- recon
    intro q hq
    rcases memMap_cons.mp hq with rfl | hq
    · refine ⟨msp ++ [d], reconstructF_insert hclosed hfresh hp hgo hr, hwalkn, hlen1, ?_⟩
      intro j hj hc
      have hjk : j ≤ k := by
        rw [List.length_append] at hj
        simp only [List.length_cons, List.length_nil] at hj
        omega
      exact hnotk (distLe_mono hjk hc)
    · obtain ⟨ms, h1, h2, h3, h4⟩ := hmid.recon q hq
      exact ⟨ms, recon_transport hclosed hfresh hq h1, h2, h3, h4⟩

theorem goFound_insert {b : Board} {a dest : Pos} {k : Nat} {m : PrevMap}
    {acc : List Pos} {p : Pos} {d : Direction}
    (hmid : GoMidInv b a dest k m acc) (hp : memMap m p)
    (hprec : nodeRec b a k m p) (hgo : d.go p = some dest)
    (hin : b.inBounds dest) (hfl : b.tileAt dest = .floor) :
    GoFound b a dest ((dest, some d) :: m) := by
  obtain ⟨msp, hr, hw, hb⟩ := hprec
  have hclosed := hmid.map.parentClosed
  have hfresh := hmid.map.destFree
  have hwalkn : walkB b a (msp ++ [d]) = some dest := walkB_snoc hw hgo ⟨hin, hfl⟩
  refine ⟨msp ++ [d], reconstructF_insert hclosed hfresh hp hgo hr, hwalkn, ?_⟩
  intro ms2 hms2
  have hnotk : ¬ distLe b a k dest := fun hc => hfresh (hmid.oldSub dest hc)
  have h2 : ¬ ms2.length ≤ k := fun hc => hnotk ⟨ms2, hms2, hc⟩
  rw [List.length_append]
  simp only [List.length_cons, List.length_nil]
  omega

theorem explore_dirs_spec {b : Board} {a dest : Pos} {k : Nat} {p : Pos} :
    ∀ (ds : List Direction) (m : PrevMap) (acc : List Pos) (fnd : Bool)
      (m2 : PrevMap) (acc2 : List Pos),
      GoMidInv b a dest k m acc → memMap m p → nodeRec b a k m p →
      explore_local_dirs b dest p ds m acc = (fnd, m2, acc2) →
      ((fnd = true → GoFound b a dest m2) ∧
       (fnd = false →
          GoMidInv b a dest k m2 acc2 ∧
          (∀ q, memMap m q → memMap m2 q) ∧
          (∃ Δ, acc2 = acc ++ Δ ∧ m2.length = m.length + Δ.length) ∧
          (∀ d ∈ ds, ∀ q, d.go p = some q →
             b.inBounds q → b.tileAt q = .floor → memMap m2 q))) := by
  intro ds
  induction ds with
  | nil =>
    intro m acc fnd m2 acc2 hmid hp hprec heq
    simp only [explore_local_dirs, Prod.mk.injEq] at heq
    obtain ⟨h1, h2, h3⟩ := heq
    subst h1; subst h2; subst h3
    refine ⟨fun hc => absurd hc (by simp), fun _ => ⟨hmid, fun q hq => hq, ⟨[], by simp⟩, ?_⟩⟩
    intro d hd
    exact absurd hd (by simp)
  | cons d ds ih =>
    intro m acc fnd m2 acc2 hmid hp hprec heq
    simp only [explore_local_dirs] at heq
    cases hgo : d.go p with
    | none =>
      simp only [hgo] at heq
      have H := ih m acc fnd m2 acc2 hmid hp hprec heq
      refine ⟨H.1, fun hf => ?_⟩
      obtain ⟨h1, h2, h3, h4⟩ := H.2 hf
      refine ⟨h1, h2, h3, ?_⟩
      intro d2 hd2 q hq
      rcases List.mem_cons.mp hd2 with rfl | hd2
      · rw [hgo] at hq
        exact absurd hq (by simp)
      · exact h4 d2 hd2 q hq
    | some next =>
      simp only [hgo] at heq
      by_cases hok : b.inBounds next ∧ b.tileAt next = .floor
      · rw [if_pos hok] at heq
        cases hl : lookupPos m next with
        | some v =>
          simp only [hl] at heq
          have H := ih m acc fnd m2 acc2 hmid hp hprec heq
          refine ⟨H.1, fun hf => ?_⟩
          obtain ⟨h1, h2, h3, h4⟩ := H.2 hf
          refine ⟨h1, h2, h3, ?_⟩
          intro d2 hd2 q hq
          rcases List.mem_cons.mp hd2 with rfl | hd2
          · rw [hgo] at hq
            cases Option.some.inj hq
            intro hb2 hf2
            exact h2 _ (memMap_of_lookup hl)
          · exact h4 d2 hd2 q hq
        | none =>
          simp only [hl] at heq
          have hfresh : ¬ memMap m next := by
            unfold memMap
            rw [hl]
            simp
          by_cases hdest : next = dest
          · subst hdest
            rw [if_pos rfl] at heq
            simp only [Prod.mk.injEq] at heq
            obtain ⟨h1, h2, h3⟩ := heq
            subst h1
            subst h2
            refine ⟨fun _ => goFound_insert hmid hp hprec hgo hok.1 hok.2, ?_⟩
            intro hc
            exact absurd hc (by simp)
          · rw [if_neg hdest] at heq
            have hmid2 := goMidInv_insert hmid hp hprec hgo hok.1 hok.2 hfresh hdest
            have hclosed := hmid.map.parentClosed
            have hp2 : memMap ((next, some d) :: m) p := memMap_cons_of hp
            have hprec2 : nodeRec b a k ((next, some d) :: m) p :=
              nodeRec_transport hclosed hfresh hp hprec
            have H := ih _ _ fnd m2 acc2 hmid2 hp2 hprec2 heq
            refine ⟨H.1, fun hf => ?_⟩
            obtain ⟨h1, h2, h3, h4⟩ := H.2 hf
            refine ⟨h1, fun q hq => h2 q (memMap_cons_of hq), ?_, ?_⟩
            · obtain ⟨Δ, hΔ1, hΔ2⟩ := h3
              refine ⟨next :: Δ, by simpa using hΔ1, ?_⟩
              rw [hΔ2]
              simp only [List.length_cons]
              omega
            · intro d2 hd2 q hq
              rcases List.mem_cons.mp hd2 with rfl | hd2
              · rw [hgo] at hq
                cases Option.some.inj hq
                intro hb2 hf2
                exact h2 _ (memMap_cons.mpr (Or.inl rfl))
              · exact h4 d2 hd2 q hq
      · rw [if_neg hok] at heq
        have H := ih m acc fnd m2 acc2 hmid hp hprec heq
        refine ⟨H.1, fun hf => ?_⟩
        obtain ⟨h1, h2, h3, h4⟩ := H.2 hf
        refine ⟨h1, h2, h3, ?_⟩
        intro d2 hd2 q hq
        rcases List.mem_cons.mp hd2 with rfl | hd2
        · intro hb2 hf2
          rw [hgo] at hq
          cases Option.some.inj hq
          exact absurd ⟨hb2, hf2⟩ hok
        · exact h4 d2 hd2 q hq

theorem mem_possible (d : Direction) : d ∈ POSSIBLE_MOVES := by
  cases d <;> simp [POSSIBLE_MOVES]

theorem walkB_split {b : Board} {a dest : Pos} {s t : List Direction}
    (h : walkB b a (s ++ t) = some dest) :
    ∃ x, walkB b a s = some x ∧ walkB b x t = some dest := by
  rw [walkB_append] at h
  cases hw : walkB b a s with
  | none => rw [hw] at h; exact absurd h (by simp)
  | some x =>
    rw [hw, Option.some_bind] at h
    exact ⟨x, rfl, h⟩

theorem step_distLe {b : Board} {a q p : Pos} {j : Nat} {d : Direction}
    (h : distLe b a j q) (hgo : d.go q = some p) (hin : b.inBounds p)
    (hfl : b.tileAt p = .floor) : distLe b a (j + 1) p := by
  obtain ⟨ms, h1, h2⟩ := h
  refine ⟨ms ++ [d], walkB_snoc h1 hgo ⟨hin, hfl⟩, ?_⟩
  rw [List.length_append]
  simp only [List.length_cons, List.length_nil]
  omega

theorem nodeRec_of_recon {b : Board} {a dest : Pos} {k : Nat} {m : PrevMap}
    {acc : List Pos} {p : Pos} (hmid : GoMidInv b a dest k m acc)
    (hp : memMap m p) (hdist : distLe b a k p) : nodeRec b a k m p := by
  obtain ⟨ms, h1, h2, h3, h4⟩ := hmid.recon p hp
  refine ⟨ms, h1, h2, ?_⟩
  by_contra hlen
  exact h4 k (by omega) hdist

theorem goLevel_spec {b : Board} {a dest : Pos} {k : Nat} :
    ∀ (F : List Pos) (m : PrevMap) (acc : List Pos),
      GoMidInv b a dest k m acc →
      (∀ p ∈ F, memMap m p ∧ distLe b a k p) →
      (∀ p, distLe b a k p → (∀ j, j < k → ¬ distLe b a j p) →
         p ∈ F ∨ (∀ (d : Direction) (q : Pos), d.go p = some q →
            b.inBounds q → b.tileAt q = .floor → memMap m q)) →
      ((∀ mf, goLevel b dest F m acc = .inl mf → GoFound b a dest mf) ∧
       (∀ m2 acc2, goLevel b dest F m acc = .inr (m2, acc2) →
          GoMidInv b a dest k m2 acc2 ∧
          (∃ Δ, acc2 = acc ++ Δ ∧ m2.length = m.length + Δ.length) ∧
          (∀ p, distLe b a k p → (∀ j, j < k → ¬ distLe b a j p) →
             ∀ (d : Direction) (q : Pos), d.go p = some q →
               b.inBounds q → b.tileAt q = .floor → memMap m2 q))) := by
  intro F
  induction F with
  | nil =>
    intro m acc hmid hF hpend
    constructor
    · intro mf heq
      exact absurd heq (by simp [goLevel])
    · intro m2 acc2 heq
      simp only [goLevel, Sum.inr.injEq, Prod.mk.injEq] at heq
      obtain ⟨h1, h2⟩ := heq
      subst h1; subst h2
      refine ⟨hmid, ⟨[], by simp⟩, ?_⟩
      intro p hd hx d q hgo hin hfl
      rcases hpend p hd hx with hc | hc
      · exact absurd hc (by simp)
      · exact hc d q hgo hin hfl
  | cons p F2 ih =>
    intro m acc hmid hF hpend
    have hp := (hF p (by simp)).1
    have hpd := (hF p (by simp)).2
    have hprec := nodeRec_of_recon hmid hp hpd
    cases hex : explore_local b dest p m acc with
    | mk fnd rest =>
      obtain ⟨me, acce⟩ := rest
      have H := explore_dirs_spec POSSIBLE_MOVES m acc fnd me acce hmid hp hprec hex
      cases fnd with
      | true =>
        constructor
        · intro mf heq
          simp only [goLevel, hex] at heq
          cases heq
          exact H.1 rfl
        · intro m2 acc2 heq
          simp only [goLevel, hex] at heq
          exact absurd heq (by simp)
      | false =>
        obtain ⟨hmid2, hmono, ⟨Δe, hΔe1, hΔe2⟩, hcomp⟩ := H.2 rfl
        have hF2 : ∀ q ∈ F2, memMap me q ∧ distLe b a k q := by
          intro q hq
          exact ⟨hmono q (hF q (by simp [hq])).1, (hF q (by simp [hq])).2⟩
        have hpend2 : ∀ q, distLe b a k q → (∀ j, j < k → ¬ distLe b a j q) →
            q ∈ F2 ∨ (∀ (d : Direction) (r : Pos), d.go q = some r →
              b.inBounds r → b.tileAt r = .floor → memMap me r) := by
          intro q hd hx
          rcases hpend q hd hx with hc | hc
          · rcases List.mem_cons.mp hc with rfl | hc2
            · exact Or.inr fun d r hgo hin hfl => hcomp d (mem_possible d) r hgo hin hfl
            · exact Or.inl hc2
          · exact Or.inr fun d r hgo hin hfl => hmono r (hc d r hgo hin hfl)
        have IH := ih me acce hmid2 hF2 hpend2
        constructor
        · intro mf heq
          simp only [goLevel, hex] at heq
          exact IH.1 mf heq
        · intro m2 acc2 heq
          simp only [goLevel, hex] at heq
          obtain ⟨h1, ⟨Δ2, hΔ21, hΔ22⟩, h3⟩ := IH.2 m2 acc2 heq
          refine ⟨h1, ⟨Δe ++ Δ2, ?_, ?_⟩, h3⟩
          · rw [hΔ21, hΔe1, List.append_assoc]
          · rw [hΔ22, hΔe2, List.length_append]
            omega

theorem GoInv.toMid {b : Board} {a dest : Pos} {k : Nat} {m : PrevMap}
    {F : List Pos} (h : GoInv b a dest k m F) : GoMidInv b a dest k m [] := by
  refine ⟨h.map, fun p hp => (h.keysIff p).mpr hp, fun p hp => Or.inl ((h.keysIff p).mp hp),
    ?_, List.nodup_nil, ?_⟩
  · intro p hp
    exact absurd hp (by simp)
  · intro p hp
    obtain ⟨ms, h1, h2, h3, h4⟩ := h.recon p hp
    exact ⟨ms, h1, h2, Nat.le_succ_of_le h3, h4⟩

/-- Transition of the level invariant after a completed (not-found)
level. -/
theorem goInv_step {b : Board} {a dest : Pos} {k : Nat} {m2 : PrevMap}
    {acc2 : List Pos}
    (hmid2 : GoMidInv b a dest k m2 acc2)
    (hcomp : ∀ p, distLe b a k p → (∀ j, j < k → ¬ distLe b a j p) →
       ∀ (d : Direction) (q : Pos), d.go p = some q →
         b.inBounds q → b.tileAt q = .floor → memMap m2 q) :
    GoInv b a dest (k + 1) m2 acc2 := by
  have hkeys : ∀ p, memMap m2 p ↔ distLe b a (k + 1) p := by
    intro p
    constructor
    · intro hp
      rcases hmid2.newChar p hp with hc | hc
      · exact distLe_mono (Nat.le_succ _) hc
      · exact (hmid2.accSpec p hc).2.1
    · intro hd
      by_cases hk : distLe b a k p
      · exact hmid2.oldSub p hk
      · obtain ⟨q, d, hdq, hgo, hin, hfl⟩ := distLe_succ_inv hd hk
        have hqex : ∀ j, j < k → ¬ distLe b a j q := by
          intro j hj hc
          exact hk (distLe_mono (by omega) (step_distLe hc hgo hin hfl))
        exact hcomp q hdq hqex d p hgo hin hfl
  refine ⟨hmid2.map, hkeys, ?_, hmid2.accNodup, hmid2.recon⟩
  intro p
  constructor
  · intro hp
    obtain ⟨h1, h2, h3⟩ := hmid2.accSpec p hp
    refine ⟨h2, ?_⟩
    intro j hj hc
    exact h3 (distLe_mono (by omega) hc)
  · rintro ⟨h1, h2⟩
    have hp2 : memMap m2 p := (hkeys p).mpr h1
    rcases hmid2.newChar p hp2 with hc | hc
    · exact absurd hc (h2 k (by omega))
    · exact hc

theorem frontier_empty_unreachable {b : Board} {a dest : Pos} {k : Nat}
    {m : PrevMap} (hkeys : ∀ p, memMap m p ↔ distLe b a k p)
    (hfront : ∀ p, ¬ (distLe b a k p ∧ ∀ j, j < k → ¬ distLe b a j p))
    (hdest : ¬ memMap m dest) : ¬ reachableB b a dest := by
  rintro ⟨ms, hms⟩
  have hex : ∃ n, distLe b a n dest := ⟨ms.length, ms, hms, Nat.le_refl _⟩
  obtain ⟨L, hL, hLmin⟩ := exists_least hex
  have hkL : ¬ distLe b a k dest := fun hc => hdest ((hkeys dest).mpr hc)
  have hkltL : k < L := by
    by_contra h
    exact hkL (distLe_mono (by omega) hL)
  obtain ⟨msL, hwL, hlenL⟩ := hL
  have hlenEq : msL.length = L := by
    have h2 : ¬ msL.length < L := fun hc => hLmin msL.length hc ⟨msL, hwL, Nat.le_refl _⟩
    omega
  have hsplit : msL.take k ++ msL.drop k = msL := List.take_append_drop k msL
  obtain ⟨x, hx1, hx2⟩ := @walkB_split b a dest (msL.take k) (msL.drop k)
    (by rw [hsplit]; exact hwL)
  have hxk : distLe b a k x := ⟨msL.take k, hx1, by rw [List.length_take]; omega⟩
  have hxexact : ∀ j, j < k → ¬ distLe b a j x := by
    intro j hj ⟨mj, hmj, hlj⟩
    have hwalk : walkB b a (mj ++ msL.drop k) = some dest := by
      rw [walkB_append, hmj, Option.some_bind]
      exact hx2
    have hlen2 : (mj ++ msL.drop k).length < L := by
      rw [List.length_append, List.length_drop]
      omega
    exact hLmin _ hlen2 ⟨_, hwalk, Nat.le_refl _⟩
  exact hfront x ⟨hxk, hxexact⟩

theorem goLoop_spec {b : Board} {a dest : Pos} (ha : b.inBounds a) :
    ∀ (fuel k : Nat) (m : PrevMap) (F : List Pos),
      GoInv b a dest k m F →
      b.rows * b.cols + 2 ≤ fuel + m.length →
      ((∀ mf, goLoop b dest fuel m F = some (some mf) → GoFound b a dest mf) ∧
       (goLoop b dest fuel m F = some none → ¬ reachableB b a dest) ∧
       goLoop b dest fuel m F ≠ none) := by
  intro fuel
  induction fuel with
  | zero =>
    intro k m F hinv hfuel
    have hbound : m.length ≤ b.rows * b.cols :=
      keys_length_le hinv.map.nodup (hinv.map.keysBound ha)
    omega
  | succ f ih =>
    intro k m F hinv hfuel
    cases F with
    | nil =>
      have hfront : ∀ p, ¬ (distLe b a k p ∧ ∀ j, j < k → ¬ distLe b a j p) := by
        intro p hc
        exact absurd ((hinv.frontIff p).mpr hc) (by simp)
      refine ⟨?_, ?_, ?_⟩
      · intro mf heq
        exact absurd heq (by simp [goLoop])
      · intro _
        exact frontier_empty_unreachable hinv.keysIff hfront hinv.map.destFree
      · simp [goLoop]
    | cons p F2 =>
      have hF : ∀ q ∈ p :: F2, memMap m q ∧ distLe b a k q := by
        intro q hq
        have hd := ((hinv.frontIff q).mp hq).1
        exact ⟨(hinv.keysIff q).mpr hd, hd⟩
      have hpend : ∀ q, distLe b a k q → (∀ j, j < k → ¬ distLe b a j q) →
          q ∈ p :: F2 ∨ (∀ (d : Direction) (r : Pos), d.go q = some r →
            b.inBounds r → b.tileAt r = .floor → memMap m r) :=
        fun q hd hx => Or.inl ((hinv.frontIff q).mpr ⟨hd, hx⟩)
      have HL := goLevel_spec (p :: F2) m [] hinv.toMid hF hpend
      cases hlev : goLevel b dest (p :: F2) m [] with
      | inl mf =>
        refine ⟨?_, ?_, ?_⟩
        · intro mf2 heq
          simp only [goLoop, hlev] at heq
          cases heq
          exact HL.1 mf hlev
        · intro heq
          simp only [goLoop, hlev] at heq
          exact absurd heq (by simp)
        · simp [goLoop, hlev]
      | inr res =>
        obtain ⟨m2, acc2⟩ := res
        obtain ⟨hmid2, ⟨Δ, hΔ1, hΔ2⟩, hcomp⟩ := HL.2 m2 acc2 hlev
        have hinv2 : GoInv b a dest (k + 1) m2 acc2 := goInv_step hmid2 hcomp
        have hloopEq : goLoop b dest (f + 1) m (p :: F2) = goLoop b dest f m2 acc2 := by
          simp [goLoop, hlev]
        by_cases hacc : acc2 = []
        · subst hacc
          have hbound2 : m2.length ≤ b.rows * b.cols :=
            keys_length_le hinv2.map.nodup (hinv2.map.keysBound ha)
          have hΔnil : (Δ : List Pos) = [] := by simpa using hΔ1.symm
          have hm2len : m2.length = m.length := by
            rw [hΔ2, hΔnil]
            simp
          cases f with
          | zero => omega
          | succ f2 =>
            have hfront : ∀ q, ¬ (distLe b a (k + 1) q ∧
                ∀ j, j < k + 1 → ¬ distLe b a j q) := by
              intro q hc
              exact absurd ((hinv2.frontIff q).mpr hc) (by simp)
            refine ⟨?_, ?_, ?_⟩
            · intro mf heq
              rw [hloopEq] at heq
              exact absurd heq (by simp [goLoop])
            · intro _
              exact frontier_empty_unreachable hinv2.keysIff hfront hinv2.map.destFree
            · rw [hloopEq]
              simp [goLoop]
        · have hlen : 1 ≤ acc2.length := by
            cases acc2 with
            | nil => exact absurd rfl hacc
            | cons x xs => simp
          have hΔlen : acc2.length = Δ.length := by rw [hΔ1]; simp
          have IH := ih (k + 1) m2 acc2 hinv2 (by omega)
          rw [hloopEq]
          exact IH

theorem goInv_init {b : Board} {a dest : Pos} (hne : dest ≠ a) :
    GoInv b a dest 0 [(a, none)] [a] := by
  have hlookup : ∀ p v, lookupPos [(a, (none : Option Direction))] p = some v →
      p = a ∧ v = none := by
    intro p v hv
    rw [lookupPos_cons] at hv
    by_cases h : p = a
    · rw [if_pos h] at hv
      exact ⟨h, (Option.some.inj hv).symm⟩
    · rw [if_neg h] at hv
      exact absurd hv (by simp [lookupPos])
  refine ⟨⟨?_, ?_, ?_, ?_, ?_, ?_⟩, ?_, ?_, ?_, ?_⟩
  · simp [mapKeys]
  · rw [lookupPos_cons, if_pos rfl]
  · intro p hp
    exact (hlookup p none hp).1
  · intro p d hp
    exact absurd (hlookup p (some d) hp).2 (by simp)
  · intro p d hp
    exact absurd (hlookup p (some d) hp).2 (by simp)
  · intro hc
    obtain ⟨v, hv⟩ := lookup_of_memMap hc
    exact hne (hlookup dest v hv).1
  · intro p
    rw [distLe_zero]
    constructor
    · intro hp
      obtain ⟨v, hv⟩ := lookup_of_memMap hp
      exact (hlookup p v hv).1
    · rintro rfl
      exact memMap_of_lookup (by rw [lookupPos_cons, if_pos rfl])
  · intro p
    rw [distLe_zero]
    constructor
    · intro hp
      have : p = a := by simpa using hp
      exact ⟨this, by omega⟩
    · rintro ⟨rfl, _⟩
      simp
  · exact List.nodup_singleton a
  · intro p hp
    obtain ⟨v, hv⟩ := lookup_of_memMap hp
    obtain ⟨rfl, rfl⟩ := hlookup p v hv
    refine ⟨[], ?_, rfl, Nat.le_refl 0, fun j hj => absurd hj (by simp)⟩
    simp only [List.length_cons, List.length_nil, reconstructF]
    rw [lookupPos_cons, if_pos rfl]

/-- Soundness, minimality, and the `none` characterisation of the
board-level `go_to`. -/
theorem goToB_spec (b : Board) (start dest : Pos) :
    (goToB start dest b = none ↔
      (¬ goGuard b start dest ∨ ¬ reachableB b start dest)) ∧
    (∀ ms, goToB start dest b = some ms →
      walkB b start ms = some dest ∧
        ∀ ms2, walkB b start ms2 = some dest → ms.length ≤ ms2.length) ∧
    ((goToB start dest b).isSome = canGoToB start dest b) := by
  unfold goToB canGoToB
  by_cases hg : goGuard b start dest
  · simp only [if_pos hg]
    by_cases hsd : start = dest
    · simp only [if_pos hsd]
      refine ⟨?_, ?_, rfl⟩
      · simp only [reduceCtorEq, false_iff]
        push_neg
        exact ⟨hg, ⟨[], by rw [← hsd]; rfl⟩⟩
      · intro ms hms
        cases hms
        subst hsd
        exact ⟨rfl, fun ms2 _ => by simp⟩
    · simp only [if_neg hsd]
      have hinit := @goInv_init b start dest (fun he => hsd he.symm)
      have hfuel : b.rows * b.cols + 2 ≤ searchFuel b + 1 := by
        unfold searchFuel
        omega
      have HS := goLoop_spec hg.1 (searchFuel b) 0 [(start, none)] [start] hinit
        (by simpa using hfuel)
      cases hloop : goLoop b dest (searchFuel b) [(start, none)] [start] with
      | none => exact absurd hloop HS.2.2
      | some r =>
        cases r with
        | none =>
          dsimp only
          refine ⟨?_, ?_, rfl⟩
          · simp only [true_iff]
            exact Or.inr (HS.2.1 hloop)
          · intro ms hms
            exact absurd hms (by simp)
        | some mf =>
          obtain ⟨msf, hrec, hwalk, hmin⟩ := HS.1 mf hloop
          dsimp only
          rw [hrec]
          refine ⟨?_, ?_, by simp⟩
          · simp only [reduceCtorEq, false_iff]
            push_neg
            exact ⟨hg, ⟨msf, hwalk⟩⟩
          · intro ms hms
            cases hms
            exact ⟨hwalk, hmin⟩
  · simp only [if_neg hg]
    refine ⟨?_, ?_, rfl⟩
    · simp only [true_iff]
      exact Or.inl hg
    · intro ms hms
      exact absurd hms (by simp)

/-! ## The `push_to` BFS invariant -/

theorem opposite_opposite (d : Direction) : opposite (opposite d) = d := by
  cases d <;> rfl

@[simp] theorem setTile_board (s : SokobanState) (p : Pos) (t : Tile) :
    (s.setTile p t).board = s.board.setTile p t := rfl

theorem move_player_push (s : SokobanState) (d : Direction) (next beyond : Pos)
    (hgo : d.go s.player = some next) (hin : s.board.inBounds next)
    (hcrate : s.board.tileAt next = .crate) (hgo2 : d.go next = some beyond)
    (hin2 : s.board.inBounds beyond) (hfl : s.board.tileAt beyond = .floor) :
    s.move_player d =
      .ok { (s.setTile next .floor).setTile beyond .crate with player := next } := by
  simp only [SokobanState.move_player, hgo, if_pos hin, SokobanState.tileAt, hcrate,
    hgo2, if_pos (And.intro hin2 hfl)]

theorem ChainOK_snoc {b0 : Board} :
    ∀ {ms : List Direction} {pl0 a q pe : Pos},
      ChainOK b0 pl0 a ms q pe →
      ∀ {d : Direction} {next pp : Pos},
        d.go q = some next → (opposite d).go q = some pp →
        b0.inBounds next → b0.tileAt next = .floor →
        b0.inBounds pp → b0.tileAt pp = .floor →
        canGoToB pe pp (b0.setTile q .crate) = true →
        ChainOK b0 pl0 a (ms ++ [d]) next q := by
  intro ms
  induction ms with
  | nil =>
    intro pl0 a q pe hch d next pp h1 h2 h3 h4 h5 h6 h7
    obtain ⟨rfl, rfl⟩ := hch
    exact ⟨next, pp, h1, h2, h3, h4, h5, h6, h7, rfl, rfl⟩
  | cons mv rest ih =>
    intro pl0 a q pe hch d next pp h1 h2 h3 h4 h5 h6 h7
    obtain ⟨c1, pp1, g1, g2, g3, g4, g5, g6, g7, hrest⟩ := hch
    exact ⟨c1, pp1, g1, g2, g3, g4, g5, g6, g7, ih hrest h1 h2 h3 h4 h5 h6 h7⟩

theorem pushPlayer_cons_fresh {origPlayer : Pos} {m : PrevMap} {q p : Pos}
    {w : Option Direction} (hfresh : ¬ memMap m q) (hp : memMap m p) :
    pushPlayer origPlayer ((q, w) :: m) p = pushPlayer origPlayer m p := by
  have hpq : p ≠ q := fun he => hfresh (he ▸ hp)
  unfold pushPlayer
  rw [lookup_cons_of_ne hpq]

theorem PushInv.parentClosedPush {b0 : Board} {origPlayer a : Pos} {m : PrevMap}
    (h : PushInv b0 origPlayer a m) : ParentClosed m := by
  intro p d hl
  obtain ⟨q, h1, _, h3⟩ := h.entryParent p d hl
  exact ⟨q, h1, h3⟩

theorem pushInv_insert {b0 : Board} {origPlayer a : Pos} {m : PrevMap}
    {p next pp : Pos} {d : Direction} {player : Pos}
    (hinv : PushInv b0 origPlayer a m) (hp : memMap m p)
    (hplayer : pushPlayer origPlayer m p = some player)
    (hgo : d.go p = some next) (hppgo : (opposite d).go p = some pp)
    (hnext : b0.inBounds next ∧ b0.tileAt next = .floor)
    (hpp : b0.inBounds pp ∧ b0.tileAt pp = .floor)
    (hcan : canGoToB player pp (b0.setTile p .crate) = true)
    (hfresh : ¬ memMap m next) :
    PushInv b0 origPlayer a ((next, some d) :: m) := by
  have hclosed := hinv.parentClosedPush
  have hamem : memMap m a := memMap_of_lookup hinv.rootLookup
  have hane : a ≠ next := fun he => hfresh (he ▸ hamem)
  obtain ⟨msp, plp, hr, hpl, hch⟩ := hinv.recon p hp
  have hplEq : plp = player := by
    rw [hplayer] at hpl
    exact (Option.some.inj hpl).symm
  subst hplEq
  refine ⟨?_, ?_, ?_, ?_, ?_, ?_⟩
  · have : mapKeys ((next, some d) :: m) = next :: mapKeys m := rfl
    rw [this, List.nodup_cons]
    exact ⟨fun hc => hfresh (memMap_iff_keys.mpr hc), hinv.nodup⟩
  · rw [lookup_cons_of_ne hane]
    exact hinv.rootLookup
  · intro q hq
    by_cases hqn : q = next
    · subst hqn
      rw [lookupPos_cons, if_pos rfl] at hq
      exact absurd (Option.some.inj hq) (by simp)
    · rw [lookup_cons_of_ne hqn] at hq
      exact hinv.rootOnly q hq
  · intro q d2 hq
    by_cases hqn : q = next
    · subst hqn
      rw [lookupPos_cons, if_pos rfl] at hq
      exact hnext
    · rw [lookup_cons_of_ne hqn] at hq
      exact hinv.entryFloor q d2 hq
  · intro q d2 hq
    by_cases hqn : q = next
    · subst hqn
      rw [lookupPos_cons, if_pos rfl] at hq
      cases Option.some.inj (Option.some.inj hq)
      exact ⟨p, opposite_go d p _ hgo, hgo, memMap_cons_of hp⟩
    · rw [lookup_cons_of_ne hqn] at hq
      obtain ⟨r, h1, h2, h3⟩ := hinv.entryParent q d2 hq
      exact ⟨r, h1, h2, memMap_cons_of h3⟩
  · intro q hq
    rcases memMap_cons.mp hq with rfl | hq
    · refine ⟨msp ++ [d], p, reconstructF_insert hclosed hfresh hp hgo hr, ?_, ?_⟩
      · unfold pushPlayer
        rw [lookupPos_cons, if_pos rfl]
        dsimp only
        exact opposite_go d p _ hgo
      · exact ChainOK_snoc hch hgo hppgo hnext.1 hnext.2 hpp.1 hpp.2 hcan
    · obtain ⟨ms, pl, h1, h2, h3⟩ := hinv.recon q hq
      exact ⟨ms, pl, recon_transport hclosed hfresh hq h1,
        (pushPlayer_cons_fresh hfresh hq).trans h2, h3⟩

theorem pushInv_init {b0 : Board} {origPlayer a : Pos} :
    PushInv b0 origPlayer a [(a, none)] := by
  have hlookup : ∀ p v, lookupPos [(a, (none : Option Direction))] p = some v →
      p = a ∧ v = none := by
    intro p v hv
    rw [lookupPos_cons] at hv
    by_cases h : p = a
    · rw [if_pos h] at hv
      exact ⟨h, (Option.some.inj hv).symm⟩
    · rw [if_neg h] at hv
      exact absurd hv (by simp [lookupPos])
  refine ⟨?_, ?_, ?_, ?_, ?_, ?_⟩
  · simp [mapKeys]
  · rw [lookupPos_cons, if_pos rfl]
  · intro p hp
    exact (hlookup p none hp).1
  · intro p d hp
    exact absurd (hlookup p (some d) hp).2 (by simp)
  · intro p d hp
    exact absurd (hlookup p (some d) hp).2 (by simp)
  · intro p hp
    obtain ⟨v, hv⟩ := lookup_of_memMap hp
    obtain ⟨rfl, rfl⟩ := hlookup p v hv
    refine ⟨[], origPlayer, ?_, ?_, rfl, rfl⟩
    · simp only [List.length_cons, List.length_nil, reconstructF]
      rw [lookupPos_cons, if_pos rfl]
    · unfold pushPlayer
      rw [lookupPos_cons, if_pos rfl]

theorem push_dirs_spec {b0 : Board} {origPlayer a dest p player : Pos} :
    ∀ (ds : List Direction) (m : PrevMap) (acc : List Pos) (fnd : Bool)
      (m2 : PrevMap) (acc2 : List Pos),
      PushInv b0 origPlayer a m → memMap m p →
      pushPlayer origPlayer m p = some player →
      (∀ q ∈ acc, memMap m q) →
      push_local_dirs b0 player dest p ds m acc = (fnd, m2, acc2) →
      (PushInv b0 origPlayer a m2 ∧
       (∀ q, memMap m q → memMap m2 q) ∧
       (∀ q ∈ acc2, memMap m2 q) ∧
       (fnd = true → memMap m2 dest)) := by
  intro ds
  induction ds with
  | nil =>
    intro m acc fnd m2 acc2 hinv hp hpl hacc heq
    simp only [push_local_dirs, Prod.mk.injEq] at heq
    obtain ⟨h1, h2, h3⟩ := heq
    subst h1; subst h2; subst h3
    exact ⟨hinv, fun q hq => hq, hacc, fun hc => absurd hc (by simp)⟩
  | cons d ds ih =>
    intro m acc fnd m2 acc2 hinv hp hpl hacc heq
    simp only [push_local_dirs] at heq
    cases hgo : d.go p with
    | none =>
      rw [hgo] at heq
      exact ih m acc fnd m2 acc2 hinv hp hpl hacc heq
    | some next =>
      cases hgo2 : (opposite d).go p with
      | none =>
        rw [hgo, hgo2] at heq
        exact ih m acc fnd m2 acc2 hinv hp hpl hacc heq
      | some pp =>
        rw [hgo, hgo2] at heq
        dsimp only at heq
        by_cases hok : b0.inBounds next ∧ b0.tileAt next = .floor ∧
            b0.inBounds pp ∧ b0.tileAt pp = .floor
        · rw [if_pos hok] at heq
          cases hl : lookupPos m next with
          | some v =>
            simp only [hl] at heq
            exact ih m acc fnd m2 acc2 hinv hp hpl hacc heq
          | none =>
            simp only [hl] at heq
            have hfresh : ¬ memMap m next := by
              unfold memMap
              rw [hl]
              simp
            cases hcan : canGoToB player pp (b0.setTile p .crate) with
            | false =>
              rw [hcan] at heq
              simp only [Bool.false_eq_true, if_false] at heq
              exact ih m acc fnd m2 acc2 hinv hp hpl hacc heq
            | true =>
              rw [hcan] at heq
              simp only [if_true] at heq
              have hinv2 := pushInv_insert hinv hp hpl hgo hgo2
                ⟨hok.1, hok.2.1⟩ ⟨hok.2.2.1, hok.2.2.2⟩ hcan hfresh
              by_cases hdest : next = dest
              · subst hdest
                rw [if_pos rfl] at heq
                simp only [Prod.mk.injEq] at heq
                obtain ⟨h1, h2, h3⟩ := heq
                subst h1; subst h2; subst h3
                refine ⟨hinv2, fun q hq => memMap_cons_of hq,
                  fun q hq => memMap_cons_of (hacc q hq), ?_⟩
                intro _
                exact memMap_cons.mpr (Or.inl rfl)
              · rw [if_neg hdest] at heq
                have hp2 : memMap ((next, some d) :: m) p := memMap_cons_of hp
                have hpl2 : pushPlayer origPlayer ((next, some d) :: m) p = some player :=
                  (pushPlayer_cons_fresh hfresh hp).trans hpl
                have hacc2 : ∀ q ∈ acc ++ [next], memMap ((next, some d) :: m) q := by
                  intro q hq
                  rcases List.mem_append.mp hq with hq | hq
                  · exact memMap_cons_of (hacc q hq)
                  · have : q = next := by simpa using hq
                    subst this
                    exact memMap_cons.mpr (Or.inl rfl)
                obtain ⟨k1, k2, k3, k4⟩ := ih _ _ fnd m2 acc2 hinv2 hp2 hpl2 hacc2 heq
                exact ⟨k1, fun q hq => k2 q (memMap_cons_of hq), k3, k4⟩
        · rw [if_neg hok] at heq
          exact ih m acc fnd m2 acc2 hinv hp hpl hacc heq

theorem pushLevel_spec {b0 : Board} {origPlayer a dest : Pos} :
    ∀ (F : List Pos) (m : PrevMap) (acc : List Pos),
      PushInv b0 origPlayer a m → (∀ p ∈ F, memMap m p) → (∀ q ∈ acc, memMap m q) →
      ((∀ mf, pushLevel b0 origPlayer dest F m acc = some (.inl mf) →
          PushInv b0 origPlayer a mf ∧ memMap mf dest) ∧
       (∀ m2 acc2, pushLevel b0 origPlayer dest F m acc = some (.inr (m2, acc2)) →
          PushInv b0 origPlayer a m2 ∧ (∀ q ∈ acc2, memMap m2 q))) := by
  intro F
  induction F with
  | nil =>
    intro m acc hinv hF hacc
    constructor
    · intro mf heq
      simp only [pushLevel] at heq
      exact absurd (Option.some.inj heq) (by simp)
    · intro m2 acc2 heq
      simp only [pushLevel] at heq
      have heq2 := Option.some.inj heq
      simp only [Sum.inr.injEq, Prod.mk.injEq] at heq2
      obtain ⟨h1, h2⟩ := heq2
      subst h1; subst h2
      exact ⟨hinv, hacc⟩
  | cons p F2 ih =>
    intro m acc hinv hF hacc
    have hp := hF p (by simp)
    obtain ⟨msp, plp, _, hpl, _⟩ := hinv.recon p hp
    cases hex : push_local b0 plp dest p m acc with
    | mk fnd rest =>
      obtain ⟨me, acce⟩ := rest
      have H := push_dirs_spec POSSIBLE_MOVES m acc fnd me acce hinv hp hpl hacc hex
      obtain ⟨hinvE, hmonoE, haccE, hfoundE⟩ := H
      cases fnd with
      | true =>
        constructor
        · intro mf heq
          simp only [pushLevel, hpl, hex] at heq
          cases Option.some.inj heq
          exact ⟨hinvE, hfoundE rfl⟩
        · intro m2 acc2 heq
          simp only [pushLevel, hpl, hex] at heq
          exact absurd (Option.some.inj heq) (by simp)
      | false =>
        have hF2 : ∀ q ∈ F2, memMap me q := by
          intro q hq
          exact hmonoE q (hF q (by simp [hq]))
        have IH := ih me acce hinvE hF2 haccE
        constructor
        · intro mf heq
          simp only [pushLevel, hpl, hex] at heq
          exact IH.1 mf heq
        · intro m2 acc2 heq
          simp only [pushLevel, hpl, hex] at heq
          exact IH.2 m2 acc2 heq

theorem pushLoop_spec {b0 : Board} {origPlayer a dest : Pos} :
    ∀ (fuel : Nat) (m : PrevMap) (F : List Pos),
      PushInv b0 origPlayer a m → (∀ p ∈ F, memMap m p) →
      ∀ mf, pushLoop b0 origPlayer dest fuel m F = some (some mf) →
        PushInv b0 origPlayer a mf ∧ memMap mf dest := by
  intro fuel
  induction fuel with
  | zero =>
    intro m F hinv hF mf heq
    exact absurd heq (by simp [pushLoop])
  | succ f ih =>
    intro m F hinv hF mf heq
    cases F with
    | nil =>
      simp only [pushLoop] at heq
      exact absurd (Option.some.inj heq) (by simp)
    | cons p F2 =>
      have HL := @pushLevel_spec b0 origPlayer a dest (p :: F2) m [] hinv hF
        (by intro q hq; simp at hq)
      simp only [pushLoop] at heq
      cases hlev : pushLevel b0 origPlayer dest (p :: F2) m [] with
      | none => rw [hlev] at heq; exact absurd heq (by simp)
      | some r =>
        rw [hlev] at heq
        cases r with
        | inl mfl =>
          simp only at heq
          cases Option.some.inj heq
          exact HL.1 _ hlev
        | inr res =>
          obtain ⟨m2, acc2⟩ := res
          simp only at heq
          obtain ⟨hinv2, hacc2⟩ := HL.2 m2 acc2 hlev
          exact ih m2 acc2 hinv2 hacc2 mf heq

/-- The reassembly loop succeeds along any `ChainOK` crate path and its
moves replay to the state with the crate moved to `dest`. -/
theorem reassemble_spec {b0 : Board} (hBWF : BWF b0) {dest pfin : Pos} :
    ∀ (cms : List Direction) (player lastPos : Pos) (hal halR : SokobanState)
      (pending acc : List Direction),
      ChainOK b0 player lastPos cms dest pfin →
      replayE hal pending = .ok halR →
      halR.board = b0.setTile lastPos .crate →
      halR.player = player →
      b0.inBounds lastPos → b0.tileAt lastPos = .floor →
      ∃ Δ fin, reassemble hal lastPos pending acc cms = some (acc ++ Δ) ∧
        replayE halR Δ = .ok fin ∧ fin.board = b0.setTile dest .crate := by
  intro cms
  induction cms with
  | nil =>
    intro player lastPos hal halR pending acc hchain hreplay hgrid hplayer hin hfl
    obtain ⟨rfl, rfl⟩ := hchain
    refine ⟨[], halR, ?_, rfl, hgrid⟩
    simp [reassemble]
  | cons mv rest ih =>
    intro player lastPos hal halR pending acc hchain hreplay hgrid hplayer hin hfl
    obtain ⟨c1, pp, hgo1, hgo2, hc1in, hc1fl, hppin, hppfl, hcan, hrest⟩ := hchain
    -- the walk to the push-point
    have hcan2 : canGoToB halR.player pp halR.board = true := by
      rw [hplayer, hgrid]
      exact hcan
    have hgoto : ∃ path, goToB halR.player pp halR.board = some path := by
      have := (goToB_spec halR.board halR.player pp).2.2
      rw [hcan2] at this
      exact Option.isSome_iff_exists.mp this
    obtain ⟨path, hpath⟩ := hgoto
    have hwalk : walkB halR.board halR.player path = some pp :=
      ((goToB_spec halR.board halR.player pp).2.1 path hpath).1
    have hrep1 : replayE halR path = .ok { halR with player := pp } :=
      walk_replay halR path pp hwalk
    -- the push move
    set S1 : SokobanState := { halR with player := pp } with hS1
    have hS1board : S1.board = b0.setTile lastPos .crate := by
      rw [hS1, board_player_update, hgrid]
    have hmvgo : mv.go S1.player = some lastPos := by
      have h3 := opposite_go (opposite mv) lastPos pp hgo2
      rw [opposite_opposite] at h3
      exact h3
    have hlastin2 : S1.board.inBounds lastPos := by
      rw [hS1board]
      exact (setTile_inBounds b0 lastPos lastPos .crate).mpr hin
    have hlastcrate : S1.board.tileAt lastPos = .crate := by
      rw [hS1board]
      exact tileAt_setTile_same hBWF hin .crate
    have hc1in2 : S1.board.inBounds c1 := by
      rw [hS1board]
      exact (setTile_inBounds b0 lastPos c1 .crate).mpr hc1in
    have hc1fl2 : S1.board.tileAt c1 = .floor := by
      rw [hS1board]
      rw [tileAt_setTile_of_ne .crate hin.2 hc1in.2 (fun he => go_ne mv lastPos c1 hgo1 he.symm)]
      exact hc1fl
    have hpush := move_player_push S1 mv lastPos c1 hmvgo hlastin2 hlastcrate hgo1
      hc1in2 hc1fl2
    set S2 : SokobanState :=
      { (S1.setTile lastPos .floor).setTile c1 .crate with player := lastPos } with hS2
    have hS2board : S2.board = b0.setTile c1 .crate := by
      rw [hS2, board_player_update, setTile_board, setTile_board, hS1board,
        setTile_setTile, setTile_tileAt_self hfl]
    have hS2player : S2.player = lastPos := rfl
    have hrep2 : replayE halR (path ++ [mv]) = .ok S2 := by
      rw [replayE_append, hrep1]
      simp only [replayE, hpush]
    have IH := ih lastPos c1 halR S2 (path ++ [mv]) (acc ++ path ++ [mv]) hrest hrep2
      hS2board hS2player hc1in hc1fl
    obtain ⟨Δr, fin, hres, hrepr, hfin⟩ := IH
    refine ⟨path ++ [mv] ++ Δr, fin, ?_, ?_, hfin⟩
    · show reassemble hal lastPos pending acc (mv :: rest) = _
      simp only [reassemble, hreplay, hgo2]
      have hgoto2 : go_to halR.player pp halR = some path := hpath
      simp only [hgoto2, hgo1]
      rw [hres]
      congr 1
      simp [List.append_assoc]
    · rw [replayE_append, hrep2]
      exact hrepr

theorem pushHal_eq {s : SokobanState} {c : Pos}
    (hcrate : s.board.tileAt c = .crate) : pushHal s c = s := by
  have hb : (s.board.setTile c .floor).setTile c .crate = s.board := by
    rw [setTile_setTile]
    exact setTile_tileAt_self hcrate
  unfold pushHal
  have hc : ((s.board.setTile c .floor).setTile c .crate).cells = s.container :=
    congrArg Board.cells hb
  rw [hc]

/-- Everything that follows from the crate BFS of `push_to` having found
the destination. -/
theorem push_found_spec {s : SokobanState} {c d : Pos} (hWF : WF s)
    (hguard : pushGuard s.board c d) {mf : PrevMap}
    (hloop : pushLoop (s.board.setTile c .floor) s.player d
        (searchFuel s.board) [(c, none)] [c] = some (some mf)) :
    ∃ cms out fin, reconstructF mf mf.length d [] = some cms ∧
      reassemble (pushHal s c) c [] [] cms = some out ∧
      replayE s out = .ok fin ∧
      fin.board = (s.board.setTile c .floor).setTile d .crate := by
  have hBWF0 : BWF (s.board.setTile c .floor) := BWF_setTile (WF_board hWF) c .floor
  have hinit : PushInv (s.board.setTile c .floor) s.player c [(c, none)] := pushInv_init
  have hmem : ∀ p ∈ [c], memMap [(c, (none : Option Direction))] p := by
    intro p hp
    have : p = c := by simpa using hp
    subst this
    exact memMap_of_lookup (by rw [lookupPos_cons, if_pos rfl])
  obtain ⟨hinvf, hdmem⟩ := pushLoop_spec (searchFuel s.board) [(c, none)] [c]
    hinit hmem mf hloop
  obtain ⟨cms, pl, hrec, hpl, hchain⟩ := hinvf.recon d hdmem
  have hcfloor : (s.board.setTile c .floor).tileAt c = .floor :=
    tileAt_setTile_same (WF_board hWF) hguard.1 .floor
  have hgrid : (pushHal s c).board =
      (s.board.setTile c .floor).setTile c .crate := rfl
  have hreplay0 : replayE (pushHal s c) [] = .ok (pushHal s c) := rfl
  obtain ⟨Δ, fin, hres, hrep, hfin⟩ := reassemble_spec hBWF0 cms s.player c
    (pushHal s c) (pushHal s c) [] [] hchain hreplay0 hgrid rfl hguard.1 hcfloor
  refine ⟨cms, Δ, fin, hrec, by simpa using hres, ?_, hfin⟩
  rw [← pushHal_eq hguard.2.1]
  exact hrep

theorem push_to_some_spec {s : SokobanState} {c d : Pos} {m : List Direction}
    (hWF : WF s) (h : push_to c d s = some m) :
    pushGuard s.board c d ∧ c ≠ d ∧
    ∃ fin, replayE s m = .ok fin ∧
      fin.board = (s.board.setTile c .floor).setTile d .crate := by
  by_cases hg : pushGuard s.board c d
  · have hcd : c ≠ d := by
      intro he
      have h1 := hg.2.1
      have h2 := hg.2.2.2
      rw [he, h2] at h1
      exact absurd h1 (by simp)
    refine ⟨hg, hcd, ?_⟩
    unfold push_to at h
    rw [if_pos hg, if_neg hcd] at h
    simp only at h
    cases hloop : pushLoop (s.board.setTile c .floor) s.player d
        (searchFuel s.board) [(c, none)] [c] with
    | none => rw [hloop] at h; exact absurd h (by simp)
    | some r =>
      rw [hloop] at h
      cases r with
      | none => exact absurd h (by simp)
      | some mf =>
        obtain ⟨cms, out, fin, hrec, hres, hrep, hfin⟩ := push_found_spec hWF hg hloop
        dsimp only at h
        rw [hrec] at h
        dsimp only at h
        have hm : out = m := by
          rw [show reassemble { s with
              container := ((s.board.setTile c .floor).setTile c .crate).cells }
              c [] [] cms = some out from hres] at h
          exact Option.some.inj h
        subst hm
        exact ⟨fin, hrep, hfin⟩
  · unfold push_to at h
    rw [if_neg hg] at h
    exact absurd h (by simp)

/-! ## Claim theorems -/

/-- C1: for every puzzle `P`, crate square `c` and Floor square `d`, if
`push_to c d P` returns `some m` then folding `m` over `P` with
`move_player` succeeds at every step and the final state has a Crate at
`d` and a Floor tile at `c` (the guard of `push_to` forces `c ≠ d`, so
the conclusion holds unconditionally in that form as well). -/
theorem C1_push_to_correct (s : SokobanState) (c d : Pos) (m : List Direction)
    (hWF : WF s) (h : push_to c d s = some m) :
    ∃ fin, replayE s m = .ok fin ∧ fin.tileAt d = .crate ∧
      (c ≠ d → fin.tileAt c = .floor) := by
  obtain ⟨hg, hcd, fin, hrep, hfin⟩ := push_to_some_spec hWF h
  have hBWF0 : BWF (s.board.setTile c .floor) := BWF_setTile (WF_board hWF) c .floor
  refine ⟨fin, hrep, ?_, ?_⟩
  · show fin.board.tileAt d = .crate
    rw [hfin]
    exact tileAt_setTile_same hBWF0 ((setTile_inBounds _ _ _ _).mpr hg.2.2.1) .crate
  · intro _
    show fin.board.tileAt c = .floor
    rw [hfin]
    rw [tileAt_setTile_of_ne .crate
      (show d.2 < (s.board.setTile c .floor).cols from hg.2.2.1.2)
      (show c.2 < (s.board.setTile c .floor).cols from hg.1.2)
      (fun he => hcd he.symm)]
    exact tileAt_setTile_same (WF_board hWF) hg.1 .floor

/-- Witness for C1 at a concrete puzzle: a 3 × 3 room where the crate at
`(1,1)` is pushed to `(2,1)` by the move list `[right, down]`. -/
theorem C1_witness :
    ∃ fin, replayE exCrateMid [Direction.right, Direction.down] = .ok fin ∧
      fin.tileAt (2, 1) = .crate ∧
      (((1, 1) : Pos) ≠ (2, 1) → fin.tileAt (1, 1) = .floor) :=
  C1_push_to_correct exCrateMid (1, 1) (2, 1) [Direction.right, Direction.down]
    (by decide) (by decide)

/-- C5: whenever the crate-position BFS of `push_to` reaches the
destination, the back-pointer reconstruction succeeds and the reassembly
loop — every `go_to` call included — returns `some`, so the `panic!`
branch is unreachable and `push_to` itself returns `some`. -/
theorem C5_reassembly_no_panic (s : SokobanState) (c d : Pos) (mf : PrevMap)
    (hWF : WF s) (hguard : pushGuard s.board c d)
    (hloop : pushLoop (s.board.setTile c .floor) s.player d
        (searchFuel s.board) [(c, none)] [c] = some (some mf)) :
    ∃ cms, reconstructF mf mf.length d [] = some cms ∧
      (∃ out, reassemble (pushHal s c) c [] [] cms = some out) ∧
      ∃ out, push_to c d s = some out := by
  obtain ⟨cms, out, fin, hrec, hres, hrep, hfin⟩ := push_found_spec hWF hguard hloop
  have hcd : c ≠ d := by
    intro he
    have h1 := hguard.2.1
    have h2 := hguard.2.2.2
    rw [he, h2] at h1
    exact absurd h1 (by simp)
  refine ⟨cms, hrec, ⟨out, hres⟩, out, ?_⟩
  unfold push_to
  rw [if_pos hguard, if_neg hcd]
  simp only
  rw [hloop]
  dsimp only
  rw [hrec]
  dsimp only
  exact hres

/-- Witness for C5: the BFS on the concrete 3 × 3 puzzle reaches `(2,1)`
and the reassembly produces a move list. -/
theorem C5_witness :
    ∃ mf, pushLoop (exCrateMid.board.setTile (1, 1) .floor) exCrateMid.player
        (2, 1) (searchFuel exCrateMid.board) [((1, 1), none)] [(1, 1)] =
          some (some mf) ∧
      ∃ cms, reconstructF mf mf.length (2, 1) [] = some cms ∧
        (∃ out, reassemble (pushHal exCrateMid (1, 1)) (1, 1) [] [] cms = some out) ∧
        ∃ out, push_to (1, 1) (2, 1) exCrateMid = some out :=
  ⟨_, rfl, C5_reassembly_no_panic exCrateMid (1, 1) (2, 1) _ (by decide) (by decide) rfl⟩

/-- C3: `go_to a b P` returns `none` exactly when an endpoint is out of
bounds or not Floor or `b` is unreachable from `a` through Floor tiles,
equivalently exactly when `can_go_to a b P` is false; any returned
sequence is a legal Floor walk from `a` to `b` of minimal length, and it
is empty when `a = b`. -/
theorem C3_go_to_correct (s : SokobanState) (a b : Pos) :
    (go_to a b s = none ↔ (¬ goGuard s.board a b ∨ ¬ reachableB s.board a b)) ∧
    (go_to a b s = none ↔ can_go_to a b s = false) ∧
    (∀ ms, go_to a b s = some ms → walkB s.board a ms = some b ∧
      ∀ ms2, walkB s.board a ms2 = some b → ms.length ≤ ms2.length) ∧
    (goGuard s.board a b → a = b → go_to a b s = some []) := by
  obtain ⟨h1, h2, h3⟩ := goToB_spec s.board a b
  refine ⟨h1, ?_, h2, ?_⟩
  · constructor
    · intro h0
      have h0b : goToB a b s.board = none := h0
      have := h3
      rw [h0b] at this
      exact this.symm
    · intro h0
      have hcan : canGoToB a b s.board = false := h0
      cases hgo : goToB a b s.board with
      | none => exact hgo
      | some ms =>
        rw [hgo] at h3
        rw [hcan] at h3
        exact absurd h3 (by simp)
  · intro hg he
    show goToB a b s.board = some []
    unfold goToB
    rw [if_pos hg, if_pos he]

/-- C9 counterexample: `go_to (a, a)` is not `some []` when `a` is a Wall
square, and `push_to (c, c)` is never `some []` for a crate square `c` —
the entry guard of `push_to` requires the destination to be Floor while
`c` holds the Crate, so it returns `none`. -/
theorem C9_counterexample :
    exCrateMid.tileAt (1, 1) = .crate ∧
    ¬ (push_to (1, 1) (1, 1) exCrateMid = some []) ∧
    push_to (1, 1) (1, 1) exCrateMid = none ∧
    exWallBelow.board.inBounds (2, 1) ∧
    ¬ (go_to (2, 1) (2, 1) exWallBelow = some []) ∧
    go_to (2, 1) (2, 1) exWallBelow = none := by
  refine ⟨by decide, by decide, by decide, by decide, by decide, by decide⟩

/-- C9 amended: `go_to a a P = some []` for every in-bounds Floor square
`a`, while `push_to c c P = none` for every square `c` holding a Crate
(the `start = destination` early return of `push_to` is dead code, because
its guard also demands `P[c] = Floor`). -/
theorem C9_amended_reflexive (s : SokobanState) (a c : Pos) :
    (s.board.inBounds a → s.board.tileAt a = .floor → go_to a a s = some []) ∧
    (s.board.tileAt c = .crate → push_to c c s = none) := by
  constructor
  · intro hin hfl
    show goToB a a s.board = some []
    unfold goToB
    rw [if_pos ⟨hin, hfl, hin, hfl⟩, if_pos rfl]
  · intro hcrate
    unfold push_to
    rw [if_neg]
    intro hg
    have := hg.2.2.2
    rw [hcrate] at this
    exact absurd this (by simp)

/-- Witness for the amended C9 on a concrete puzzle. -/
theorem C9_witness :
    go_to (0, 1) (0, 1) exCrateMid = some [] ∧
    push_to (1, 1) (1, 1) exCrateMid = none :=
  ⟨(C9_amended_reflexive exCrateMid (0, 1) (1, 1)).1 (by decide) (by decide),
   (C9_amended_reflexive exCrateMid (0, 1) (1, 1)).2 (by decide)⟩

/-! ## Mutator lemmas -/

theorem move_player_crate_inv {s s2 : SokobanState} {d : Direction} {nxt : Pos}
    (hgo : d.go s.player = some nxt) (hcrate : s.tileAt nxt = .crate)
    (h : s.move_player d = .ok s2) :
    ∃ beyond, d.go nxt = some beyond ∧ s.board.inBounds nxt ∧
      s.board.inBounds beyond ∧ s.tileAt beyond = .floor ∧
      s2 = { (s.setTile nxt .floor).setTile beyond .crate with player := nxt } := by
  unfold SokobanState.move_player at h
  rw [hgo] at h
  dsimp only at h
  by_cases hin : s.board.inBounds nxt
  · rw [if_pos hin] at h
    rw [hcrate] at h
    dsimp only at h
    cases hgo2 : d.go nxt with
    | none => rw [hgo2] at h; exact absurd h (by simp)
    | some beyond =>
      rw [hgo2] at h
      dsimp only at h
      by_cases hok : s.board.inBounds beyond ∧ s.tileAt beyond = .floor
      · rw [if_pos hok] at h
        exact ⟨beyond, rfl, hin, hok.1, hok.2, (Except.ok.inj h).symm⟩
      · rw [if_neg hok] at h
        exact absurd h (by simp)
  · rw [if_neg hin] at h
    exact absurd h (by simp)

theorem mcLoop_spec {maxSize : Nat} {moves : List Direction} {current : SokobanState} :
    ∀ (fuel : Nat) (budget : List (Pos × Direction)) (r : MutOutcome (Pos × Direction)),
      mcLoop maxSize moves current fuel budget = some r →
      (∃ suf, budget = r.budget ++ suf) ∧
      (r.result = .skipped → r.moves = moves ∧ r.hallucinated = some current) ∧
      (r.result = .mutated →
        r.budget.length < budget.length ∧
        ∃ tgt dir walkDest mvs h2,
          (tgt, dir) ∈ budget ∧
          (opposite dir).go tgt = some walkDest ∧
          go_to current.player walkDest current = some mvs ∧
          r.moves = moves ++ mvs ++ [dir] ∧
          r.hallucinated = some h2 ∧
          replayE current (mvs ++ [dir]) = .ok h2) := by
  intro fuel
  induction fuel with
  | zero =>
    intro budget r h
    exact absurd h (by simp [mcLoop])
  | succ f ih =>
    intro budget r h
    simp only [mcLoop] at h
    cases hpop : budget.getLast? with
    | none =>
      rw [hpop] at h
      have hr := Option.some.inj h
      subst hr
      refine ⟨⟨budget, rfl⟩, fun _ => ⟨rfl, rfl⟩, fun hc => absurd hc (by simp)⟩
    | some e =>
      obtain ⟨tgt, dir⟩ := e
      rw [hpop] at h
      dsimp only at h
      have hdecomp : budget.dropLast ++ [(tgt, dir)] = budget :=
        List.dropLast_append_getLast? _ hpop
      have hlen : budget.dropLast.length + 1 = budget.length := by
        rw [← hdecomp]
        simp
      -- helper to lift the conclusion through one popped element
      have lift : mcLoop maxSize moves current f budget.dropLast = some r →
          (∃ suf, budget = r.budget ++ suf) ∧
          (r.result = .skipped → r.moves = moves ∧ r.hallucinated = some current) ∧
          (r.result = .mutated →
            r.budget.length < budget.length ∧
            ∃ tgt2 dir2 walkDest mvs h2,
              (tgt2, dir2) ∈ budget ∧
              (opposite dir2).go tgt2 = some walkDest ∧
              go_to current.player walkDest current = some mvs ∧
              r.moves = moves ++ mvs ++ [dir2] ∧
              r.hallucinated = some h2 ∧
              replayE current (mvs ++ [dir2]) = .ok h2) := by
        intro hrec
        obtain ⟨hpre, hskip, hmut⟩ := ih budget.dropLast r hrec
        refine ⟨?_, hskip, ?_⟩
        · obtain ⟨suf, hsuf⟩ := hpre
          exact ⟨suf ++ [(tgt, dir)], by rw [← hdecomp, hsuf, List.append_assoc]⟩
        · intro hm
          obtain ⟨hlt, tgt2, dir2, walkDest, mvs, h2, hmem, hrest⟩ := hmut hm
          exact ⟨by omega, tgt2, dir2, walkDest, mvs, h2,
            (by rw [← hdecomp]; exact List.mem_append_left _ hmem), hrest⟩
      cases hgo : dir.go tgt with
      | none =>
        rw [hgo] at h
        exact lift h
      | some potential =>
        rw [hgo] at h
        dsimp only at h
        cases htile : current.board.tileAtChecked potential with
        | none => rw [htile] at h; exact absurd h (by simp)
        | some t =>
          rw [htile] at h
          dsimp only at h
          by_cases hfl : t = .floor
          · rw [if_pos hfl] at h
            cases hwd : (opposite dir).go tgt with
            | none =>
              rw [hwd] at h
              exact lift h
            | some walkDest =>
              rw [hwd] at h
              dsimp only at h
              cases hgoto : go_to current.player walkDest current with
              | none =>
                rw [hgoto] at h
                exact lift h
              | some mvs =>
                rw [hgoto] at h
                dsimp only at h
                by_cases hsz : mvs.length + moves.length > maxSize
                · rw [if_pos hsz] at h
                  have hr := Option.some.inj h
                  subst hr
                  refine ⟨⟨[(tgt, dir)], hdecomp.symm⟩, fun _ => ⟨rfl, rfl⟩,
                    fun hc => absurd hc (by simp)⟩
                · rw [if_neg hsz] at h
                  cases hrep : replayE current mvs with
                  | error e => rw [hrep] at h; exact absurd h (by simp)
                  | ok mid =>
                    rw [hrep] at h
                    dsimp only at h
                    cases hmv : mid.move_player dir with
                    | error e => rw [hmv] at h; exact absurd h (by simp)
                    | ok nxt =>
                      rw [hmv] at h
                      have hr := Option.some.inj h
                      subst hr
                      refine ⟨⟨[(tgt, dir)], hdecomp.symm⟩,
                        fun hc => absurd hc (by simp), fun _ => ?_⟩
                      refine ⟨by dsimp only; omega, tgt, dir, walkDest, mvs, nxt,
                        List.mem_of_mem_getLast? hpop, hwd, hgoto, rfl, rfl, ?_⟩
                      rw [replayE_append, hrep]
                      simp only [replayE, hmv]
          · rw [if_neg hfl] at h
            exact lift h

theorem mttLoop_spec {maxSize : Nat} {moves : List Direction} {current : SokobanState} :
    ∀ (fuel : Nat) (budget : List (Pos × Pos)) (r : MutOutcome (Pos × Pos)),
      mttLoop maxSize moves current fuel budget = some r →
      (∃ suf, budget = r.budget ++ suf) ∧
      (r.result = .skipped → r.moves = moves ∧ r.hallucinated = some current) ∧
      (r.result = .mutated →
        r.budget.length < budget.length ∧
        ∃ moved target mvs h2,
          (moved, target) ∈ budget ∧
          push_to moved target current = some mvs ∧
          r.moves = moves ++ mvs ∧
          r.hallucinated = some h2 ∧
          replayE current mvs = .ok h2) := by
  intro fuel
  induction fuel with
  | zero =>
    intro budget r h
    exact absurd h (by simp [mttLoop])
  | succ f ih =>
    intro budget r h
    simp only [mttLoop] at h
    cases hpop : budget.getLast? with
    | none =>
      rw [hpop] at h
      have hr := Option.some.inj h
      subst hr
      refine ⟨⟨budget, rfl⟩, fun _ => ⟨rfl, rfl⟩, fun hc => absurd hc (by simp)⟩
    | some e =>
      obtain ⟨moved, target⟩ := e
      rw [hpop] at h
      dsimp only at h
      have hdecomp : budget.dropLast ++ [(moved, target)] = budget :=
        List.dropLast_append_getLast? _ hpop
      have hlen : budget.dropLast.length + 1 = budget.length := by
        rw [← hdecomp]
        simp
      cases hpush : push_to moved target current with
      | none =>
        rw [hpush] at h
        obtain ⟨hpre, hskip, hmut⟩ := ih budget.dropLast r h
        refine ⟨?_, hskip, ?_⟩
        · obtain ⟨suf, hsuf⟩ := hpre
          exact ⟨suf ++ [(moved, target)], by rw [← hdecomp, hsuf, List.append_assoc]⟩
        · intro hm
          obtain ⟨hlt, m2, t2, mvs, h2, hmem, hrest⟩ := hmut hm
          exact ⟨by omega, m2, t2, mvs, h2,
            (by rw [← hdecomp]; exact List.mem_append_left _ hmem), hrest⟩
      | some mvs =>
        rw [hpush] at h
        dsimp only at h
        by_cases hsz : mvs.length + moves.length > maxSize
        · rw [if_pos hsz] at h
          have hr := Option.some.inj h
          subst hr
          refine ⟨⟨[(moved, target)], hdecomp.symm⟩, fun _ => ⟨rfl, rfl⟩,
            fun hc => absurd hc (by simp)⟩
        · rw [if_neg hsz] at h
          cases hrep : replayE current mvs with
          | error e2 => rw [hrep] at h; exact absurd h (by simp)
          | ok nxt =>
            rw [hrep] at h
            have hr := Option.some.inj h
            subst hr
            refine ⟨⟨[(moved, target)], hdecomp.symm⟩,
              fun hc => absurd hc (by simp), fun _ => ?_⟩
            exact ⟨by dsimp only; omega, moved, target, mvs, nxt,
              List.mem_of_mem_getLast? hpop, hpush, rfl, rfl, hrep⟩

theorem osLoop_spec {maxSize : Nat} :
    ∀ (pairs : List (Pos × Pos)) (current : SokobanState) (moves : List Direction)
      (res : MutationResult) (o : OneShotOutcome),
      osLoop maxSize pairs current moves res = some o →
      ∃ t h2, o.moves = moves ++ t ∧ o.hallucinated = some h2 ∧
        replayE current t = .ok h2 := by
  intro pairs
  induction pairs with
  | nil =>
    intro current moves res o h
    simp only [osLoop] at h
    have hr := Option.some.inj h
    subst hr
    exact ⟨[], current, by simp, rfl, rfl⟩
  | cons e rest ih =>
    obtain ⟨target, moved⟩ := e
    intro current moves res o h
    simp only [osLoop] at h
    cases hpush : push_to moved target current with
    | none =>
      rw [hpush] at h
      have hr := Option.some.inj h
      subst hr
      exact ⟨[], current, by simp, rfl, rfl⟩
    | some mvs =>
      rw [hpush] at h
      dsimp only at h
      by_cases hsz : mvs.length + moves.length > maxSize
      · rw [if_pos hsz] at h
        have hr := Option.some.inj h
        subst hr
        exact ⟨[], current, by simp, rfl, rfl⟩
      · rw [if_neg hsz] at h
        cases hrep : replayE current mvs with
        | error e2 => rw [hrep] at h; exact absurd h (by simp)
        | ok cur2 =>
          rw [hrep] at h
          dsimp only at h
          by_cases hsol : cur2.in_solution_state
          · rw [if_pos hsol] at h
            have hr := Option.some.inj h
            subst hr
            exact ⟨mvs, cur2, rfl, rfl, hrep⟩
          · rw [if_neg hsol] at h
            obtain ⟨t2, h2, ho1, ho2, ho3⟩ := ih cur2 (moves ++ mvs) .mutated o h
            refine ⟨mvs ++ t2, h2, by rw [ho1, List.append_assoc], ho2, ?_⟩
            rw [replayE_append, hrep]
            exact ho3

/-- C2: each of the three mutators only appends to the move list and
keeps the hallucinated post-state equal to the replay of the new move
list over the initial puzzle. -/
theorem C2_mutators_preserve_hallucination (P : SokobanState) (maxSize : Nat)
    (moves : List Direction) (hal : SokobanState)
    (hrep : replayE P moves = .ok hal) :
    (∀ budget r, moveCrateMutate maxSize moves hal budget = some r →
       r.result = .mutated →
       (∃ t, r.moves = moves ++ t) ∧
       ∃ h2, r.hallucinated = some h2 ∧ replayE P r.moves = .ok h2) ∧
    (∀ budget r, moveCrateToTargetMutate maxSize moves hal budget = some r →
       r.result = .mutated →
       (∃ t, r.moves = moves ++ t) ∧
       ∃ h2, r.hallucinated = some h2 ∧ replayE P r.moves = .ok h2) ∧
    (∀ pairs o, oneShotMutate maxSize moves hal pairs = some o →
       o.result = .mutated →
       (∃ t, o.moves = moves ++ t) ∧
       ∃ h2, o.hallucinated = some h2 ∧ replayE P o.moves = .ok h2) := by
  refine ⟨?_, ?_, ?_⟩
  · intro budget r h hm
    unfold moveCrateMutate at h
    by_cases hsz : maxSize ≤ moves.length
    · rw [if_pos hsz] at h
      have hr := Option.some.inj h
      subst hr
      exact absurd hm (by simp)
    · rw [if_neg hsz] at h
      obtain ⟨_, _, hmut⟩ := mcLoop_spec (budget.length + 1) budget r h
      obtain ⟨_, tgt, dir, walkDest, mvs, h2, _, _, _, hmoves, hhal, hrepl⟩ := hmut hm
      refine ⟨⟨mvs ++ [dir], by rw [hmoves, List.append_assoc]⟩, h2, hhal, ?_⟩
      rw [hmoves, List.append_assoc, replayE_append, hrep]
      exact hrepl
  · intro budget r h hm
    unfold moveCrateToTargetMutate at h
    by_cases hsz : maxSize ≤ moves.length
    · rw [if_pos hsz] at h
      have hr := Option.some.inj h
      subst hr
      exact absurd hm (by simp)
    · rw [if_neg hsz] at h
      obtain ⟨_, _, hmut⟩ := mttLoop_spec (budget.length + 1) budget r h
      obtain ⟨_, moved, target, mvs, h2, _, _, hmoves, hhal, hrepl⟩ := hmut hm
      refine ⟨⟨mvs, hmoves⟩, h2, hhal, ?_⟩
      rw [hmoves, replayE_append, hrep]
      exact hrepl
  · intro pairs o h hm
    unfold oneShotMutate at h
    by_cases hsz : maxSize ≤ moves.length
    · rw [if_pos hsz] at h
      have hr := Option.some.inj h
      subst hr
      exact absurd hm (by simp)
    · rw [if_neg hsz] at h
      by_cases hsol : hal.in_solution_state
      · rw [if_pos hsol] at h
        have hr := Option.some.inj h
        subst hr
        exact absurd hm (by simp)
      · rw [if_neg hsol] at h
        obtain ⟨t, h2, ho1, ho2, ho3⟩ := osLoop_spec pairs hal moves .skipped o h
        refine ⟨⟨t, ho1⟩, h2, ho2, ?_⟩
        rw [ho1, replayE_append, hrep]
        exact ho3

/-- Witness for C2: a concrete MoveCrate call that mutates. -/
theorem C2_witness :
    ∃ r, moveCrateMutate 100 [] exCrateMid [((1, 1), Direction.up)] = some r ∧
      r.result = .mutated ∧
      (∃ t, r.moves = [] ++ t) ∧
      ∃ h2, r.hallucinated = some h2 ∧ replayE exCrateMid r.moves = .ok h2 :=
  ⟨_, rfl, rfl,
    ((C2_mutators_preserve_hallucination exCrateMid 100 [] exCrateMid rfl).1
      [((1, 1), Direction.up)] _ rfl rfl).1,
    ((C2_mutators_preserve_hallucination exCrateMid 100 [] exCrateMid rfl).1
      [((1, 1), Direction.up)] _ rfl rfl).2⟩

/-- C4 fails on the code: `MoveCrateMutator::mutate` checks only
`walk.len + moves.len > max_size` before appending the walk *plus one
push move*, so a call on an input within `max_size` can return `Mutated`
with `len(moves) = max_size + 1`.  Concretely, with `max_size = 1` and an
empty move list, the walk `[right]` plus the push `[down]` gives a
two-move list. -/
theorem C4_move_crate_exceeds_max_size :
    ([] : List Direction).length ≤ 1 ∧
    ∃ r, moveCrateMutate 1 [] exCrateMid [((1, 1), Direction.down)] = some r ∧
      r.result = .mutated ∧ r.moves.length = 2 ∧ 1 < r.moves.length :=
  ⟨by decide, _, rfl, rfl, rfl, by decide⟩

/-- C6 counterexample: a single `Mutated` MoveCrate call that removes two
elements from `moves_remaining` — the first popped pair fails (the square
below the crate is a Wall) and is consumed, then the second succeeds. -/
theorem C6_counterexample :
    ∃ r, moveCrateMutate 100 [] exWallBelow
        [((1, 1), Direction.right), ((1, 1), Direction.down)] = some r ∧
      r.result = .mutated ∧ r.budget = [] ∧
      ([((1, 1), Direction.right), ((1, 1), Direction.down)] :
        List (Pos × Direction)).length - r.budget.length ≠ 1 :=
  ⟨_, rfl, rfl, rfl, by decide⟩

/-- C6 amended: a `Mutated` call of MoveCrate (resp. MoveCrateToTarget)
removes *at least* one element from `moves_remaining` (resp.
`move_to_targets_remaining`); every pair popped before the successful one
is also consumed, so the new budget is a proper prefix of the old. -/
theorem C6_amended_budget_consumption (maxSize : Nat) (moves : List Direction)
    (hal : SokobanState) :
    (∀ budget r, moveCrateMutate maxSize moves hal budget = some r →
       r.result = .mutated →
       (∃ suf, budget = r.budget ++ suf) ∧ r.budget.length < budget.length) ∧
    (∀ budget r, moveCrateToTargetMutate maxSize moves hal budget = some r →
       r.result = .mutated →
       (∃ suf, budget = r.budget ++ suf) ∧ r.budget.length < budget.length) := by
  constructor
  · intro budget r h hm
    unfold moveCrateMutate at h
    by_cases hsz : maxSize ≤ moves.length
    · rw [if_pos hsz] at h
      have hr := Option.some.inj h
      subst hr
      exact absurd hm (by simp)
    · rw [if_neg hsz] at h
      obtain ⟨hpre, _, hmut⟩ := mcLoop_spec (budget.length + 1) budget r h
      exact ⟨hpre, (hmut hm).1⟩
  · intro budget r h hm
    unfold moveCrateToTargetMutate at h
    by_cases hsz : maxSize ≤ moves.length
    · rw [if_pos hsz] at h
      have hr := Option.some.inj h
      subst hr
      exact absurd hm (by simp)
    · rw [if_neg hsz] at h
      obtain ⟨hpre, _, hmut⟩ := mttLoop_spec (budget.length + 1) budget r h
      exact ⟨hpre, (hmut hm).1⟩

/-- Witness for the amended C6. -/
theorem C6_witness :
    ∃ r, moveCrateMutate 100 [] exWallBelow
        [((1, 1), Direction.right), ((1, 1), Direction.down)] = some r ∧
      (∃ suf, [((1, 1), Direction.right), ((1, 1), Direction.down)] =
        r.budget ++ suf) ∧
      r.budget.length <
        ([((1, 1), Direction.right), ((1, 1), Direction.down)] :
          List (Pos × Direction)).length :=
  ⟨_, rfl,
    (C6_amended_budget_consumption 100 [] exWallBelow).1 _ _ rfl rfl⟩

theorem replayE_singleton_inv {s s2 : SokobanState} {d : Direction}
    (h : replayE s [d] = .ok s2) : s.move_player d = .ok s2 := by
  simp only [replayE] at h
  cases hmv : s.move_player d with
  | ok s3 => rw [hmv] at h; exact congrArg Except.ok (Except.ok.inj h)
  | error e => rw [hmv] at h; exact absurd h (by simp)

/-- C7: a `Mutated` MoveCrate call takes the replay of the old move list
to a state that differs from it by exactly one crate (one drawn from the
budget, which the scheduler populates with the crate squares of that very
replay) moved one step in the popped direction; the player walks over
Floor only, so all other tiles — in particular all other crates — are
unchanged. -/
theorem C7_move_crate_one_step (P : SokobanState) (maxSize : Nat)
    (moves : List Direction) (hal : SokobanState) (budget : List (Pos × Direction))
    (hrep : replayE P moves = .ok hal)
    (hcrates : ∀ p dir2, (p, dir2) ∈ budget → hal.tileAt p = .crate)
    (r : MutOutcome (Pos × Direction))
    (h : moveCrateMutate maxSize moves hal budget = some r)
    (hm : r.result = .mutated) :
    ∃ tgt dir potential h2,
      (tgt, dir) ∈ budget ∧ dir.go tgt = some potential ∧ potential ≠ tgt ∧
      hal.tileAt tgt = .crate ∧ hal.tileAt potential = .floor ∧
      r.hallucinated = some h2 ∧ replayE P r.moves = .ok h2 ∧
      h2.board = (hal.board.setTile tgt .floor).setTile potential .crate ∧
      h2.targets = hal.targets ∧ h2.rows = hal.rows ∧ h2.cols = hal.cols := by
  unfold moveCrateMutate at h
  by_cases hsz : maxSize ≤ moves.length
  · rw [if_pos hsz] at h
    have hr := Option.some.inj h
    subst hr
    exact absurd hm (by simp)
  · rw [if_neg hsz] at h
    obtain ⟨_, _, hmut⟩ := mcLoop_spec (budget.length + 1) budget r h
    obtain ⟨_, tgt, dir, walkDest, mvs, h2, hmem, hwd, hgoto, hmoves, hhal, hrepl⟩ :=
      hmut hm
    -- the walk moves only the player
    have hwalk : walkB hal.board hal.player mvs = some walkDest :=
      ((goToB_spec hal.board hal.player walkDest).2.1 mvs hgoto).1
    have hmid : replayE hal mvs = .ok { hal with player := walkDest } :=
      walk_replay hal mvs walkDest hwalk
    have hpush : ({ hal with player := walkDest } : SokobanState).move_player dir =
        .ok h2 := by
      rw [replayE_append, hmid] at hrepl
      exact replayE_singleton_inv hrepl
    have hdirgo : dir.go walkDest = some tgt := by
      have h3 := opposite_go (opposite dir) tgt walkDest hwd
      rw [opposite_opposite] at h3
      exact h3
    have hcr : ({ hal with player := walkDest } : SokobanState).tileAt tgt = .crate :=
      hcrates tgt dir hmem
    obtain ⟨beyond, hbgo, hbin, hbin2, hbfl, hs2⟩ :=
      move_player_crate_inv hdirgo hcr hpush
    refine ⟨tgt, dir, beyond, h2, hmem, hbgo, go_ne dir tgt beyond hbgo,
      hcrates tgt dir hmem, hbfl, hhal, ?_, ?_, ?_, ?_, ?_⟩
    · rw [hmoves, List.append_assoc, replayE_append, hrep]
      exact hrepl
    · rw [hs2]
      rfl
    · rw [hs2]
      rfl
    · rw [hs2]
      rfl
    · rw [hs2]
      rfl

/-- Witness for C7: pushing the centre crate up on the concrete 3 × 3
puzzle. -/
theorem C7_witness :
    ∃ r, moveCrateMutate 100 [] exCrateMid [((1, 1), Direction.up)] = some r ∧
      r.result = .mutated ∧
      ∃ tgt dir potential h2,
        (tgt, dir) ∈ [((1, 1), Direction.up)] ∧ dir.go tgt = some potential ∧
        potential ≠ tgt ∧
        exCrateMid.tileAt tgt = .crate ∧ exCrateMid.tileAt potential = .floor ∧
        r.hallucinated = some h2 ∧ replayE exCrateMid r.moves = .ok h2 ∧
        h2.board = (exCrateMid.board.setTile tgt .floor).setTile potential .crate ∧
        h2.targets = exCrateMid.targets ∧ h2.rows = exCrateMid.rows ∧
        h2.cols = exCrateMid.cols :=
  ⟨_, rfl, rfl,
    C7_move_crate_one_step exCrateMid 100 [] exCrateMid [((1, 1), Direction.up)]
      rfl
      (by
        intro p dir2 hp
        simp only [List.mem_singleton, Prod.mk.injEq] at hp
        rw [hp.1]
        decide)
      _ rfl rfl⟩

/-! ## Crate-count and budget lemmas for the scheduler -/

theorem getD_set_at (l : List Tile) (i : Nat) (v : Tile) (h : i < l.length) :
    (l.set i v).getD i .wall = v := by
  rw [List.getD_eq_getElem?_getD, List.getElem?_set_self h]
  rfl

theorem getD_set_ne (l : List Tile) (i j : Nat) (v : Tile) (h : i ≠ j) :
    (l.set i v).getD j .wall = l.getD j .wall := by
  rw [List.getD_eq_getElem?_getD, List.getD_eq_getElem?_getD, List.getElem?_set_ne h]

theorem countP_set (p : Tile → Bool) :
    ∀ (l : List Tile) (i : Nat) (v : Tile), i < l.length →
      (l.set i v).countP p + (if p (l.getD i .wall) then 1 else 0) =
        l.countP p + (if p v then 1 else 0) := by
  intro l
  induction l with
  | nil => intro i v h; exact absurd h (by simp)
  | cons a tl ih =>
    intro i v h
    cases i with
    | zero =>
      simp only [List.set, List.countP_cons, List.getD_cons_zero]
      omega
    | succ j =>
      simp only [List.set, List.countP_cons, List.getD_cons_succ]
      have := ih j v (by simpa using h)
      omega

theorem filterMap_if_length {α β : Type} (P : α → Prop) [DecidablePred P]
    (g : α → β) (l : List α) :
    (l.filterMap fun a => if P a then some (g a) else none).length =
      l.countP fun a => decide (P a) := by
  induction l with
  | nil => rfl
  | cons a tl ih =>
    by_cases h : P a
    · simp only [List.filterMap_cons, if_pos h, List.countP_cons, decide_eq_true h]
      simp [ih]
    · simp only [List.filterMap_cons, if_neg h, List.countP_cons]
      simp only [decide_eq_false h]
      simp [ih]

theorem map_getD_range : ∀ (l : List Tile),
    (List.range l.length).map (fun i => l.getD i .wall) = l := by
  intro l
  induction l with
  | nil => rfl
  | cons a tl ih =>
    have he : ∀ i ∈ List.range tl.length,
        ((fun i => (a :: tl).getD i Tile.wall) ∘ Nat.succ) i = tl.getD i Tile.wall := by
      intro i _
      simp [Function.comp, List.getD_cons_succ]
    rw [List.length_cons, List.range_succ_eq_map]
    simp only [List.map_cons, List.map_map]
    rw [List.map_congr_left he, ih]
    simp [List.getD_cons_zero]

theorem find_crates_length {s : SokobanState} (hWF : WF s) :
    (find_crates s).length = s.container.countP isCrate := by
  unfold find_crates
  rw [filterMap_if_length (fun i => s.container.getD i .wall = Tile.crate)
    (fun i => ((i / s.cols, i % s.cols) : Pos)) (List.range (s.rows * s.cols))]
  have h1 : (List.range (s.rows * s.cols)).countP
      (fun i => decide (s.container.getD i .wall = Tile.crate)) =
      ((List.range (s.rows * s.cols)).map (fun i => s.container.getD i .wall)).countP
        isCrate := by
    rw [List.countP_map]
    rfl
  rw [h1, ← hWF, map_getD_range]

theorem move_player_preserves {s s2 : SokobanState} {d : Direction} (hWF : WF s)
    (h : s.move_player d = .ok s2) :
    s2.rows = s.rows ∧ s2.cols = s.cols ∧ s2.targets = s.targets ∧
      s2.container.length = s.container.length ∧
      s2.container.countP isCrate = s.container.countP isCrate := by
  unfold SokobanState.move_player at h
  cases hgo : d.go s.player with
  | none => rw [hgo] at h; exact absurd h (by simp)
  | some next =>
    rw [hgo] at h
    dsimp only at h
    by_cases hin : s.board.inBounds next
    · rw [if_pos hin] at h
      cases htile : s.tileAt next with
      | floor =>
        rw [htile] at h
        have hs := Except.ok.inj h
        subst hs
        exact ⟨rfl, rfl, rfl, rfl, rfl⟩
      | wall => rw [htile] at h; exact absurd h (by simp)
      | crate =>
        rw [htile] at h
        dsimp only at h
        cases hgo2 : d.go next with
        | none => rw [hgo2] at h; exact absurd h (by simp)
        | some beyond =>
          rw [hgo2] at h
          dsimp only at h
          by_cases hok : s.board.inBounds beyond ∧ s.tileAt beyond = .floor
          · rw [if_pos hok] at h
            have hs := Except.ok.inj h
            subst hs
            refine ⟨rfl, rfl, rfl, by simp [SokobanState.setTile], ?_⟩
            have hib : rmIdx s.cols next < s.container.length :=
              rmIdx_lt (WF_board hWF) hin
            have hjb : rmIdx s.cols beyond < s.container.length :=
              rmIdx_lt (WF_board hWF) hok.1
            have hne : rmIdx s.cols next ≠ rmIdx s.cols beyond := by
              intro he
              exact go_ne d next beyond hgo2 (rmIdx_inj hin.2 hok.1.2 he).symm
            have e1 := countP_set isCrate s.container (rmIdx s.cols next) .floor hib
            have hgd1 : s.container.getD (rmIdx s.cols next) .wall = Tile.crate := htile
            have hlen1 : (s.container.set (rmIdx s.cols next) Tile.floor).length =
                s.container.length := by simp
            have e2 := countP_set isCrate (s.container.set (rmIdx s.cols next) .floor)
              (rmIdx s.cols beyond) .crate (by rw [hlen1]; exact hjb)
            have hgd2 : (s.container.set (rmIdx s.cols next) Tile.floor).getD
                (rmIdx s.cols beyond) .wall = Tile.floor := by
              rw [getD_set_ne _ _ _ _ hne]
              exact hok.2
            rw [hgd1] at e1
            rw [hgd2] at e2
            have hc : (if isCrate Tile.crate = true then 1 else 0) = 1 := rfl
            have hf : (if isCrate Tile.floor = true then 1 else 0) = 0 := rfl
            rw [hc, hf] at e1
            rw [hf, hc] at e2
            show ((s.container.set (rmIdx s.cols next) Tile.floor).set
              (rmIdx s.cols beyond) Tile.crate).countP isCrate = _
            omega
          · rw [if_neg hok] at h
            exact absurd h (by simp)
    · rw [if_neg hin] at h
      exact absurd h (by simp)

theorem replayE_preserves :
    ∀ {ms : List Direction} {s s2 : SokobanState}, WF s → replayE s ms = .ok s2 →
      s2.rows = s.rows ∧ s2.cols = s.cols ∧ s2.targets = s.targets ∧ WF s2 ∧
        s2.container.countP isCrate = s.container.countP isCrate := by
  intro ms
  induction ms with
  | nil =>
    intro s s2 hWF h
    have hs := Except.ok.inj h
    subst hs
    exact ⟨rfl, rfl, rfl, hWF, rfl⟩
  | cons d ds ih =>
    intro s s2 hWF h
    simp only [replayE] at h
    cases hmv : s.move_player d with
    | error e => rw [hmv] at h; exact absurd h (by simp)
    | ok mid =>
      rw [hmv] at h
      obtain ⟨p1, p2, p3, p4, p5⟩ := move_player_preserves hWF hmv
      have hWFmid : WF mid := by
        unfold WF at hWF ⊢
        rw [p4, p1, p2]
        exact hWF
      obtain ⟨q1, q2, q3, q4, q5⟩ := ih hWFmid h
      exact ⟨q1.trans p1, q2.trans p2, q3.trans p3, q4, q5.trans p5⟩

theorem sum_map_const {α : Type} (l : List α) (n : Nat) :
    (l.map fun _ => n).sum = l.length * n := by
  induction l with
  | nil => simp
  | cons a tl ih => simp [ih, Nat.succ_mul, Nat.add_comm]

theorem remaining_formula (crates targets : List Pos) :
    (SokobanRemainingMutationsMetadata.new crates targets).remaining =
      4 * crates.length + crates.length * targets.length := by
  unfold SokobanRemainingMutationsMetadata.new SokobanRemainingMutationsMetadata.remaining
  simp only [List.length_flatten, List.map_map, Function.comp_def, List.length_map]
  rw [sum_map_const crates POSSIBLE_MOVES.length, sum_map_const crates targets.length]
  have h4 : POSSIBLE_MOVES.length = 4 := rfl
  rw [h4, Nat.mul_comm crates.length 4]

/-- C8: when the scheduler's weight map has been emptied by pruning (so
`total_weight` is zero), `next` does not report a key-not-found error:
the weighted scan falls off the end of the empty map into the
`unreachable!()` panic, modelled as `none`, for every random draw and
every recorded `max_weight`. -/
theorem C8_empty_scheduler_panics :
    ∀ (mw r : Nat),
      schedNext { weight := [], max_weight := mw, total_weight := 0, pruneable := [] } r =
        none :=
  fun _ _ => rfl

/-- A `MoveCrateMutator::mutate` call never grows the testcase's
`moves_remaining` budget. -/
theorem moveCrate_budget_le {maxSize : Nat} {moves : List Direction}
    {hal : SokobanState} {budget : List (Pos × Direction)}
    {r : MutOutcome (Pos × Direction)}
    (h : moveCrateMutate maxSize moves hal budget = some r) :
    r.budget.length ≤ budget.length := by
  unfold moveCrateMutate at h
  by_cases hg : maxSize ≤ moves.length
  · rw [if_pos hg] at h
    have hr := Option.some.inj h
    subst hr
    simp
  · rw [if_neg hg] at h
    obtain ⟨⟨suf, hsuf⟩, -, -⟩ := mcLoop_spec (budget.length + 1) budget r h
    rw [hsuf]
    simp

/-- A `MoveCrateToTargetMutator::mutate` call never grows the testcase's
`move_to_targets_remaining` budget. -/
theorem moveCrateToTarget_budget_le {maxSize : Nat} {moves : List Direction}
    {hal : SokobanState} {budget : List (Pos × Pos)} {r : MutOutcome (Pos × Pos)}
    (h : moveCrateToTargetMutate maxSize moves hal budget = some r) :
    r.budget.length ≤ budget.length := by
  unfold moveCrateToTargetMutate at h
  by_cases hg : maxSize ≤ moves.length
  · rw [if_pos hg] at h
    have hr := Option.some.inj h
    subst hr
    simp
  · rw [if_neg hg] at h
    obtain ⟨⟨suf, hsuf⟩, -, -⟩ := mttLoop_spec (budget.length + 1) budget r h
    rw [hsuf]
    simp

/-- The budget `on_add` computes for a testcase whose move list replays
successfully is the common value `initialBudget init`: replaying
preserves the crate count and the target list. -/
theorem onAdd_budget {init : SokobanState} (hWF : WF init) {ms : List Direction}
    {h : SokobanState} (hre : replayE init ms = .ok h) :
    (SokobanRemainingMutationsMetadata.new (find_crates h) h.targets).remaining =
      initialBudget init := by
  obtain ⟨p1, p2, p3, p4, p5⟩ := replayE_preserves hWF hre
  rw [remaining_formula, initialBudget]
  rw [find_crates_length p4, p5, ← find_crates_length hWF, p3]

/-- Every scheduler step preserves the budget invariant. -/
theorem corpusStep_inv {init : SokobanState} {cm cm2 : CorpusModel} (hWF : WF init)
    (hinv : CorpusInv init cm) (hstep : CorpusStep init cm cm2) :
    CorpusInv init cm2 := by
  obtain ⟨h1, h2, h3⟩ := hinv
  cases hstep with
  | add ms idx hadd =>
    unfold corpusAdd at hadd
    cases hre : replayE init ms with
    | error e => rw [hre] at hadd; exact absurd hadd (by simp)
    | ok hst =>
      rw [hre] at hadd
      dsimp only at hadd
      have hc := Option.some.inj hadd
      subst hc
      have hB := onAdd_budget hWF hre
      refine ⟨?_, ?_, ?_⟩
      · dsimp only
        by_cases h0 : cm.md.max_weight = 0
        · rw [if_pos h0, hB]
          exact Or.inr rfl
        · rw [if_neg h0]
          exact Or.inr (h1.resolve_left h0)
      · dsimp only
        intro hmw0
        by_cases h0 : cm.md.max_weight = 0
        · rw [if_pos h0] at hmw0
          right
          rw [← hB]
          exact hmw0
        · rw [if_neg h0] at hmw0
          exact absurd hmw0 h0
      · dsimp only
        intro e he
        rcases List.mem_append.mp he with hin | hnew
        · exact h3 e hin
        · rw [List.mem_singleton] at hnew
          subst hnew
          rw [hB]
  | moveCrate i maxSize moves hal e r he hm =>
    refine ⟨h1, ?_, ?_⟩
    · intro hmw0
      rcases h2 hmw0 with hnil | hB0
      · left
        show cm.entries.set i _ = []
        rw [hnil]
        rfl
      · exact Or.inr hB0
    · intro e2 he2
      rcases List.mem_or_eq_of_mem_set he2 with hin | heq
      · exact h3 e2 hin
      · subst heq
        have hee : e ∈ cm.entries := List.get?_mem he
        have hle := moveCrate_budget_le hm
        have h4 := h3 e hee
        unfold SokobanRemainingMutationsMetadata.remaining at h4 ⊢
        dsimp only
        omega
  | moveCrateToTarget i maxSize moves hal e r he hm =>
    refine ⟨h1, ?_, ?_⟩
    · intro hmw0
      rcases h2 hmw0 with hnil | hB0
      · left
        show cm.entries.set i _ = []
        rw [hnil]
        rfl
      · exact Or.inr hB0
    · intro e2 he2
      rcases List.mem_or_eq_of_mem_set he2 with hin | heq
      · exact h3 e2 hin
      · subst heq
        have hee : e ∈ cm.entries := List.get?_mem he
        have hle := moveCrateToTarget_budget_le hm
        have h4 := h3 e hee
        unfold SokobanRemainingMutationsMetadata.remaining at h4 ⊢
        dsimp only
        omega
  | remove i =>
    refine ⟨h1, ?_, ?_⟩
    · intro hmw0
      rcases h2 hmw0 with hnil | hB0
      · left
        show cm.entries.eraseIdx i = []
        rw [hnil]
        rfl
      · exact Or.inr hB0
    · intro e2 he2
      exact h3 e2 (List.mem_of_mem_eraseIdx he2)
  | bookkeeping w2 tw2 pr2 =>
    exact ⟨h1, fun hmw0 => h2 hmw0, h3⟩

/-- The budget invariant holds in every reachable scheduler state. -/
theorem corpusReach_inv {init : SokobanState} {cm : CorpusModel} (hWF : WF init)
    (h : CorpusReach init cm) : CorpusInv init cm := by
  induction h with
  | refl =>
    exact ⟨Or.inl rfl, fun _ => Or.inl rfl,
      fun e he => absurd he (by simp [corpusInit])⟩
  | step hr hs ih => exact corpusStep_inv hWF ih hs

/-- C10: over the modelled scheduler lifecycle - `on_add` computing each
new testcase's budget from the replayed state and initialising
`max_weight` from the first added entry (src/scheduler.rs lines 54-87),
the budget-consuming mutators shrinking budgets, corpus removal, and the
weight bookkeeping of `on_evaluation` and `next` - every added entry's
initial budget is the common value 4·|crates| + |crates|·|targets| of
the initial puzzle (the crate count and the target list being
replay-invariant), `max_weight` is 0 or that common value, every live
budget stays bounded by it, and whenever a live entry's remaining budget
R is positive, R ≤ max_weight, so the weight 1 + max_weight - R that
`on_evaluation` computes never underflows and is at least 1. -/
theorem C10_weights_safe (init : SokobanState) (cm : CorpusModel)
    (hWF : WF init) (hreach : CorpusReach init cm) :
    (∀ (ms : List Direction) (h : SokobanState), replayE init ms = .ok h →
      (SokobanRemainingMutationsMetadata.new (find_crates h) h.targets).remaining =
        initialBudget init) ∧
    (cm.md.max_weight = 0 ∨ cm.md.max_weight = initialBudget init) ∧
    (∀ e ∈ cm.entries, e.remaining ≤ initialBudget init) ∧
    (∀ e ∈ cm.entries, 0 < e.remaining →
      e.remaining ≤ cm.md.max_weight ∧
      onEvaluationComputed cm.md.max_weight e.remaining =
        some (1 + cm.md.max_weight - e.remaining) ∧
      1 ≤ 1 + cm.md.max_weight - e.remaining) := by
  obtain ⟨h1, h2, h3⟩ := corpusReach_inv hWF hreach
  refine ⟨fun ms h hre => onAdd_budget hWF hre, h1, h3, ?_⟩
  intro e he hpos
  have hle : e.remaining ≤ initialBudget init := h3 e he
  have hmw : cm.md.max_weight = initialBudget init := by
    rcases h1 with h0 | hB
    · rcases h2 h0 with hnil | hB0
      · rw [hnil] at he
        exact absurd he (by simp)
      · omega
    · exact hB
  refine ⟨by omega, ?_, by omega⟩
  unfold onEvaluationComputed
  rw [if_pos (by omega)]

/-- Witness for C10: the invariant applied in the concrete corpus
reached by one `on_add` over `exCrateMid`, at its single entry. -/
theorem C10_witness :
    (SokobanRemainingMutationsMetadata.new (find_crates exCrateMid)
        exCrateMid.targets).remaining ≤ exCorpus.md.max_weight ∧
    onEvaluationComputed exCorpus.md.max_weight
        (SokobanRemainingMutationsMetadata.new (find_crates exCrateMid)
          exCrateMid.targets).remaining =
      some (1 + exCorpus.md.max_weight -
        (SokobanRemainingMutationsMetadata.new (find_crates exCrateMid)
          exCrateMid.targets).remaining) ∧
    1 ≤ 1 + exCorpus.md.max_weight -
      (SokobanRemainingMutationsMetadata.new (find_crates exCrateMid)
        exCrateMid.targets).remaining :=
  (C10_weights_safe exCrateMid exCorpus (by decide)
      (CorpusReach.step CorpusReach.refl (CorpusStep.add [] 0 rfl))).2.2.2
    (SokobanRemainingMutationsMetadata.new (find_crates exCrateMid)
      exCrateMid.targets)
    (by decide) (by decide)

end SokobanFuzz

